import Mathlib

/-!
# Fixed_set: a two-level (FKS) perfect-hash set of integers

Shallow embedding of `src/fixedSet.cpp` and the properties checked against it.

Modelling conventions.

* `int`, `int64_t` and `size_t` values are mathematical integers / naturals.
  The one place where the source computes with values that leave their type is
  `slope_ * key + intercept_` in `HashFunction::getValue`; there the `int64_t`
  arithmetic is modelled by two's-complement wrap-around (`wrapInt64`).
  Container sizes are taken to be representable in `int`.
* Operations whose behaviour is undefined in C++ return a `Fault`:
  `%` by zero, and a vector subscript outside the vector.
* `std::mt19937` together with the two `uniform_int_distribution`s is modelled
  by the finite list of `(slope, intercept)` pairs they are going to return, in
  order. A retry loop that needs a draw when the list is empty returns
  `Fault.drawsExhausted`: the construction did not finish within these draws.
-/

namespace FKS

/-! ## Constants and machine integers -/

/-- The constant `kPrime` of the source. -/
def kPrime : Int := 10000000019

/-- The constant `kSizeBound` of the source. -/
def kSizeBound : Int := 5

/-- Membership in the range of a 32-bit signed `int`. -/
def isInt32 (x : Int) : Prop := -2147483648 ≤ x ∧ x ≤ 2147483647

instance (x : Int) : Decidable (isInt32 x) := by
  unfold isInt32; infer_instance

/-- Membership in the range of `int64_t`. -/
def fitsInt64 (x : Int) : Prop := -9223372036854775808 ≤ x ∧ x ≤ 9223372036854775807

instance (x : Int) : Decidable (fitsInt64 x) := by
  unfold fitsInt64; infer_instance

/-- Two's-complement reduction of an integer to the range of `int64_t`. -/
def wrapInt64 (x : Int) : Int :=
  (x + 9223372036854775808) % 18446744073709551616 - 9223372036854775808

/-- The ways in which a run of the source can fail to produce a value. -/
inductive Fault where
  /-- The right operand of `%` is zero. -/
  | divisionByZero
  /-- A vector is subscripted outside `[0, size())`. -/
  | outOfRange
  /-- A retry loop asked for a draw and none was left. -/
  | drawsExhausted
  deriving DecidableEq, Repr

deriving instance DecidableEq for Except

/-- Read `v[i]` for a `std::vector`, the index coming from an `int`. -/
def vectorAt {α : Type} (v : List α) (i : Int) : Except Fault α :=
  if i < 0 then .error .outOfRange
  else
    match v[i.toNat]? with
    | some a => .ok a
    | none => .error .outOfRange

/-- Update `v[i]` in place by `f`. -/
def vectorModify {α : Type} (v : List α) (i : Int) (f : α → α) : Except Fault (List α) :=
  match vectorAt v i with
  | .error e => .error e
  | .ok a => .ok (v.set i.toNat (f a))

/-! ## OptionalInt -/

/-- The class `OptionalInt`: a value and a flag. -/
structure OptionalInt where
  value_ : Int
  isInitialized_ : Bool
  deriving DecidableEq, Repr

/-- The default constructor `OptionalInt()`. -/
def OptionalInt.null : OptionalInt := { value_ := 0, isInitialized_ := false }

/-- The method `OptionalInt::Initialize`. -/
def OptionalInt.Initialize (_o : OptionalInt) (value : Int) : OptionalInt :=
  { value_ := value, isInitialized_ := true }

/-! ## HashFunction -/

/-- The class `HashFunction`. -/
structure HashFunction where
  slope_ : Int
  intercept_ : Int
  functionPrime_ : Int
  deriving DecidableEq, Repr

/-- The default constructor `HashFunction()`; it leaves the members
indeterminate, and no member is read before it is assigned. -/
def HashFunction.default : HashFunction :=
  { slope_ := 0, intercept_ := 0, functionPrime_ := 0 }

/-- The constructor `HashFunction(slope, intercept)`. -/
def HashFunction.new2 (slope intercept : Int) : HashFunction :=
  { slope_ := slope, intercept_ := intercept, functionPrime_ := kPrime }

/-- The constructor `HashFunction(slope, intercept, prime)`. -/
def HashFunction.new3 (slope intercept _prime : Int) : HashFunction :=
  { slope_ := slope, intercept_ := intercept, functionPrime_ := kPrime }

/-- The exact value of `slope_ * key + intercept_` over the integers. -/
def HashFunction.exactLinear (h : HashFunction) (key : Int) : Int :=
  h.slope_ * key + h.intercept_

/-- The value of `slope_ * key + intercept_` as computed in `int64_t`. -/
def HashFunction.linear (h : HashFunction) (key : Int) : Int :=
  wrapInt64 (wrapInt64 (h.slope_ * key) + h.intercept_)

/-- First statement of `getValue`:
`(slope_ * key + intercept_) % functionPrime_`, with the truncating `%` of C++. -/
def HashFunction.modPrime (h : HashFunction) (key : Int) : Except Fault Int :=
  if h.functionPrime_ = 0 then .error .divisionByZero
  else .ok (Int.tmod (h.linear key) h.functionPrime_)

/-- The method `HashFunction::getValue`. -/
def HashFunction.getValue (h : HashFunction) (key size : Int) : Except Fault Int :=
  match h.modPrime key with
  | .error e => .error e
  | .ok result =>
      if size = 0 then .error .divisionByZero
      else
        let result := Int.tmod result size
        let result := if result < 0 then result + size else result
        .ok result

/-- The index `getValue` yields for a non-zero prime and a positive table size:
the non-negative remainder of the first-step value, as a natural number. It is
used to state what the loops of the source compute. -/
def HashFunction.slot (h : HashFunction) (key : Int) (size : Nat) : Nat :=
  (Int.tmod (h.linear key) h.functionPrime_ % (size : Int)).toNat

/-! ## The sampler -/

/-- The random source: the pairs `(slope, intercept)` still to be drawn. -/
abbrev RandomGenerator := List (Int × Int)

/-- The ranges of the two distributions of `GetRandomHashFunction`. -/
def validDraw (draw : Int × Int) : Prop :=
  1 ≤ draw.1 ∧ draw.1 ≤ kPrime ∧ 0 ≤ draw.2 ∧ draw.2 ≤ kPrime

instance (draw : Int × Int) : Decidable (validDraw draw) := by
  unfold validDraw; infer_instance

/-- The function `GetRandomHashFunction`, given the pair the two distributions
return; the caller removes that pair from the generator. -/
def GetRandomHashFunction (draw : Int × Int) : HashFunction :=
  HashFunction.new3 draw.1 draw.2 kPrime

/-! ## Histogram and sum of squares -/

/-- The loop of `FindKeyDistribution`. -/
def FindKeyDistribution.loop (hash : HashFunction) (range : Nat) :
    List Int → List Nat → Except Fault (List Nat)
  | [], distribution => .ok distribution
  | intToSet :: rest, distribution =>
      match hash.getValue intToSet range with
      | .error e => .error e
      | .ok index =>
          match vectorModify distribution index (· + 1) with
          | .error e => .error e
          | .ok distribution => FindKeyDistribution.loop hash range rest distribution

/-- The function `FindKeyDistribution`. -/
def FindKeyDistribution (hash : HashFunction) (numbers : List Int) : Except Fault (List Nat) :=
  FindKeyDistribution.loop hash numbers.length numbers (List.replicate numbers.length 0)

/-- The function `CalculateSumOfSquares`. -/
def CalculateSumOfSquares (keyDistribution : List Nat) : Int :=
  keyDistribution.foldl (fun currentSum bucketSize => currentSum + (bucketSize * bucketSize : Nat)) 0

/-! ## Bucket -/

/-- The class `Bucket` (the member `bucketPrime_` is never used). -/
structure Bucket where
  boxes_ : List OptionalInt
  bucketHash_ : HashFunction
  deriving DecidableEq, Repr

/-- The `do ... while` loop of `Bucket::Initialize`: sample until the sum of
squares of the histogram equals the number of keys. -/
def Bucket.Initialize.search (intsToSet : List Int) :
    RandomGenerator → Except Fault (HashFunction × RandomGenerator)
  | [] => .error .drawsExhausted
  | draw :: randomGenerator =>
      let bucketHash_ := GetRandomHashFunction draw
      match FindKeyDistribution bucketHash_ intsToSet with
      | .error e => .error e
      | .ok distribution =>
          if CalculateSumOfSquares distribution ≠ (intsToSet.length : Int) then
            Bucket.Initialize.search intsToSet randomGenerator
          else .ok (bucketHash_, randomGenerator)

/-- The `for` loop of `Bucket::Initialize` that writes the keys into the slots. -/
def Bucket.Initialize.fill (bucketHash_ : HashFunction) :
    List Int → List OptionalInt → Except Fault (List OptionalInt)
  | [], boxes_ => .ok boxes_
  | curInt :: rest, boxes_ =>
      match bucketHash_.getValue curInt boxes_.length with
      | .error e => .error e
      | .ok hashIndex =>
          match vectorModify boxes_ hashIndex (fun box => box.Initialize curInt) with
          | .error e => .error e
          | .ok boxes_ => Bucket.Initialize.fill bucketHash_ rest boxes_

/-- The method `Bucket::Initialize`. -/
def Bucket.Initialize (intsToSet : List Int) (randomGenerator : RandomGenerator) :
    Except Fault (Bucket × RandomGenerator) :=
  let bucketSize := intsToSet.length * intsToSet.length
  match Bucket.Initialize.search intsToSet randomGenerator with
  | .error e => .error e
  | .ok (bucketHash_, randomGenerator) =>
      match Bucket.Initialize.fill bucketHash_ intsToSet
          (List.replicate bucketSize OptionalInt.null) with
      | .error e => .error e
      | .ok boxes_ => .ok ({ boxes_ := boxes_, bucketHash_ := bucketHash_ }, randomGenerator)

/-- The method `Bucket::Contains`. -/
def Bucket.Contains (b : Bucket) (intToSearch : Int) : Except Fault Bool :=
  if b.boxes_.isEmpty then .ok false
  else
    match b.bucketHash_.getValue intToSearch b.boxes_.length with
    | .error e => .error e
    | .ok hashIndex =>
        match vectorAt b.boxes_ hashIndex with
        | .error e => .error e
        | .ok box => .ok (box.isInitialized_ && box.value_ == intToSearch)

/-! ## FixedSet -/

/-- The class `FixedSet`. -/
structure FixedSet where
  buckets_ : List Bucket
  size_ : Int
  tableHash_ : HashFunction
  deriving DecidableEq, Repr

/-- The `while (memoryToSet > kSizeBound * size_)` loop of `FixedSet::Initialize`. -/
def FixedSet.Initialize.search (intsToSet : List Int) (size_ : Int) :
    Int → HashFunction → RandomGenerator → Except Fault (HashFunction × RandomGenerator)
  | memoryToSet, tableHash_, [] =>
      if memoryToSet > kSizeBound * size_ then .error .drawsExhausted
      else .ok (tableHash_, [])
  | memoryToSet, tableHash_, draw :: randomGenerator =>
      if memoryToSet > kSizeBound * size_ then
        let tableHash_ := GetRandomHashFunction draw
        match FindKeyDistribution tableHash_ intsToSet with
        | .error e => .error e
        | .ok currentDistribution =>
            FixedSet.Initialize.search intsToSet size_
              (CalculateSumOfSquares currentDistribution) tableHash_ randomGenerator
      else .ok (tableHash_, draw :: randomGenerator)

/-- The loop of `FixedSet::Initialize` that appends every key to the group of
its outer hash value. -/
def FixedSet.Initialize.distribute (tableHash_ : HashFunction) (size_ : Int) :
    List Int → List (List Int) → Except Fault (List (List Int))
  | [], intsToSetInBucket => .ok intsToSetInBucket
  | curInt :: rest, intsToSetInBucket =>
      match tableHash_.getValue curInt size_ with
      | .error e => .error e
      | .ok hashIndex =>
          match vectorModify intsToSetInBucket hashIndex (fun group => group ++ [curInt]) with
          | .error e => .error e
          | .ok intsToSetInBucket =>
              FixedSet.Initialize.distribute tableHash_ size_ rest intsToSetInBucket

/-- The last loop of `FixedSet::Initialize`: initialise the buckets one after
the other, with the same generator. -/
def FixedSet.Initialize.buckets :
    List (List Int) → RandomGenerator → Except Fault (List Bucket × RandomGenerator)
  | [], randomGenerator => .ok ([], randomGenerator)
  | group :: rest, randomGenerator =>
      match Bucket.Initialize group randomGenerator with
      | .error e => .error e
      | .ok (bucket, randomGenerator) =>
          match FixedSet.Initialize.buckets rest randomGenerator with
          | .error e => .error e
          | .ok (others, randomGenerator) => .ok (bucket :: others, randomGenerator)

/-- The method `FixedSet::Initialize`; the generator it creates is the
argument, and the draws it did not use are returned with the set. -/
def FixedSet.Initialize (intsToSet : List Int) (randomGenerator : RandomGenerator) :
    Except Fault (FixedSet × RandomGenerator) :=
  let size_ : Int := intsToSet.length
  let memoryToSet : Int := kSizeBound * size_ + 1
  match FixedSet.Initialize.search intsToSet size_ memoryToSet HashFunction.default
      randomGenerator with
  | .error e => .error e
  | .ok (tableHash_, randomGenerator) =>
      match FixedSet.Initialize.distribute tableHash_ size_ intsToSet
          (List.replicate intsToSet.length []) with
      | .error e => .error e
      | .ok intsToSetInBucket =>
          match FixedSet.Initialize.buckets intsToSetInBucket randomGenerator with
          | .error e => .error e
          | .ok (buckets_, randomGenerator) =>
              .ok ({ buckets_ := buckets_, size_ := size_, tableHash_ := tableHash_ },
                randomGenerator)

/-- The method `FixedSet::Contains`. -/
def FixedSet.Contains (s : FixedSet) (intToSearch : Int) : Except Fault Bool :=
  match s.tableHash_.getValue intToSearch s.size_ with
  | .error e => .error e
  | .ok hashIndex =>
      match vectorAt s.buckets_ hashIndex with
      | .error e => .error e
      | .ok bucket => bucket.Contains intToSearch

/-- The loop of `findInts` that appends one answer per query. -/
def findInts.loop (newSet : FixedSet) : List Int → List Bool → Except Fault (List Bool)
  | [], answer => .ok answer
  | number :: rest, answer =>
      match newSet.Contains number with
      | .error e => .error e
      | .ok found => findInts.loop newSet rest (answer ++ [found])

/-- The function `findInts`. -/
def findInts (intsToSet intsToSearch : List Int) (randomGenerator : RandomGenerator) :
    Except Fault (List Bool) :=
  match FixedSet.Initialize intsToSet randomGenerator with
  | .error e => .error e
  | .ok (newSet, _) => findInts.loop newSet intsToSearch []

/-! ## A worked example -/

/-- The key list of the end-to-end scenario. -/
def exampleKeys : List Int := [5, 12, 19, 3, 8]

/-- Draws, all within the ranges of the sampler, with which the construction on
`exampleKeys` finishes: the first is the outer hash, the fifth is rejected by
the bucket that holds 3 and 8, and the last is not used. -/
def exampleDraws : RandomGenerator :=
  [(1, 0), (7, 3), (4, 1), (6, 2), (2, 0), (1, 0), (9, 9), (11, 5)]

/-- The bucket built from the keys 3 and 8 in the example. -/
def exampleBucket : Bucket :=
  { boxes_ := [{ value_ := 8, isInitialized_ := true }, OptionalInt.null, OptionalInt.null,
      { value_ := 3, isInitialized_ := true }],
    bucketHash_ := GetRandomHashFunction (1, 0) }

/-- The set built from `exampleKeys` with `exampleDraws`. -/
def exampleSet : FixedSet :=
  { buckets_ :=
      [{ boxes_ := [{ value_ := 5, isInitialized_ := true }],
         bucketHash_ := GetRandomHashFunction (7, 3) },
       { boxes_ := [], bucketHash_ := GetRandomHashFunction (4, 1) },
       { boxes_ := [{ value_ := 12, isInitialized_ := true }],
         bucketHash_ := GetRandomHashFunction (6, 2) },
       exampleBucket,
       { boxes_ := [{ value_ := 19, isInitialized_ := true }],
         bucketHash_ := GetRandomHashFunction (9, 9) }],
    size_ := 5,
    tableHash_ := GetRandomHashFunction (1, 0) }

/-- The set built from the empty key list with one draw. -/
def emptySet : FixedSet :=
  { buckets_ := [], size_ := 0, tableHash_ := GetRandomHashFunction (1, 0) }

/-- The bucket built from the empty key list with the draw `(1, 0)`. -/
def emptyBucket : Bucket :=
  { boxes_ := [], bucketHash_ := GetRandomHashFunction (1, 0) }

/-! ## Functions used to state and check the properties -/

/-- The affine hash as the specification words it,
`((a * x + b) mod P) mod m` with the non-negative remainder; it is compared
with `HashFunction.getValue`. -/
def specHash (slope intercept key m : Int) : Int :=
  ((slope * key + intercept) % kPrime) % m

/-- Trial division: `noDivisorFrom n d lo` tests that no number in
`[lo, lo + 2 ^ d)` divides `n`. It is used to check that `kPrime` is prime. -/
def noDivisorFrom (n : Nat) : Nat → Nat → Bool
  | 0, lo => n % lo != 0
  | d + 1, lo => noDivisorFrom n d lo && noDivisorFrom n d (lo + 2 ^ d)

/-! ## Arithmetic of `getValue` -/

theorem tmod_gt_neg (r s : Int) (hs : 0 < s) : -s < r.tmod s := by
  rcases le_or_lt 0 r with h | h
  · have := Int.tmod_nonneg s h
    omega
  · obtain ⟨n, rfl⟩ := Int.eq_ofNat_of_zero_le (le_of_lt hs)
    obtain ⟨m, rfl⟩ := Int.eq_negSucc_of_lt_zero h
    have hn : 0 < n := by exact_mod_cast hs
    have hlt : (m + 1) % n < n := Nat.mod_lt _ hn
    show -(n : Int) < -((((m + 1) % n : Nat)) : Int)
    omega

/-- Adding the divisor to a negative truncated remainder gives the
non-negative remainder. -/
theorem tmod_normalize (r s : Int) (hs : 0 < s) :
    (if r.tmod s < 0 then r.tmod s + s else r.tmod s) = r % s := by
  have h1 := tmod_gt_neg r s hs
  have h2 := Int.tmod_lt_of_pos r hs
  have h3 : r.tmod s + s * r.tdiv s = r := Int.tmod_add_tdiv r s
  have h4 : r % s = (r.tmod s) % s := by
    conv_lhs => rw [← h3]
    simp
  rw [h4]
  split
  · rw [← Int.add_emod_self, Int.emod_eq_of_lt (by omega) (by omega)]
  · rw [Int.emod_eq_of_lt (by omega) (by omega)]

theorem kPrime_ne_zero : kPrime ≠ 0 := by decide

@[simp] theorem GetRandomHashFunction_prime (draw : Int × Int) :
    (GetRandomHashFunction draw).functionPrime_ = kPrime := rfl

theorem getValue_eq_emod (h : HashFunction) (hp : h.functionPrime_ ≠ 0) (key size : Int)
    (hs : 0 < size) :
    h.getValue key size = .ok (Int.tmod (h.linear key) h.functionPrime_ % size) := by
  have hs0 : size ≠ 0 := by omega
  simp only [HashFunction.getValue, HashFunction.modPrime, hp, hs0, if_false]
  exact congrArg Except.ok (tmod_normalize _ _ hs)

theorem slot_lt (h : HashFunction) (key : Int) (size : Nat) (hs : 0 < size) :
    h.slot key size < size := by
  have h1 : (0 : Int) < size := by exact_mod_cast hs
  have h2 := Int.emod_lt_of_pos (Int.tmod (h.linear key) h.functionPrime_) h1
  have h3 := Int.emod_nonneg (Int.tmod (h.linear key) h.functionPrime_) (ne_of_gt h1)
  unfold HashFunction.slot
  omega

theorem getValue_eq_slot (h : HashFunction) (hp : h.functionPrime_ ≠ 0) (key : Int) (size : Nat)
    (hs : 0 < size) : h.getValue key size = .ok (h.slot key size : Int) := by
  have h1 : (0 : Int) < size := by exact_mod_cast hs
  rw [getValue_eq_emod h hp key size h1]
  have h3 := Int.emod_nonneg (Int.tmod (h.linear key) h.functionPrime_) (ne_of_gt h1)
  unfold HashFunction.slot
  rw [Int.toNat_of_nonneg h3]

/-- The index over a table of size `k * k` determines the index over a table of
size `k`. -/
theorem slot_sq_mod (h : HashFunction) (key : Int) (k : Nat) (hk : 0 < k) :
    h.slot key (k * k) % k = h.slot key k := by
  have h1 : (0 : Int) < k := by exact_mod_cast hk
  have h2 : (0 : Int) < ((k * k : Nat) : Int) := by
    have : 0 < k * k := Nat.mul_pos hk hk
    exact_mod_cast this
  have e1 := Int.emod_nonneg (Int.tmod (h.linear key) h.functionPrime_) (ne_of_gt h1)
  have e2 := Int.emod_nonneg (Int.tmod (h.linear key) h.functionPrime_) (ne_of_gt h2)
  have hd : (k : Int) ∣ ((k * k : Nat) : Int) := ⟨k, by push_cast; ring⟩
  have key1 := Int.emod_emod_of_dvd (Int.tmod (h.linear key) h.functionPrime_) hd
  unfold HashFunction.slot
  apply Int.ofNat_inj.mp
  rw [Int.ofNat_emod, Int.toNat_of_nonneg e1, Int.toNat_of_nonneg e2]
  exact key1

/-! ## Vector subscripts -/

theorem vectorAt_natCast {α : Type} (v : List α) (n : Nat) (hn : n < v.length) :
    vectorAt v (n : Int) = .ok v[n] := by
  have h0 : ¬ ((n : Int) < 0) := by omega
  simp [vectorAt, h0, List.getElem?_eq_getElem hn]

theorem vectorModify_natCast {α : Type} (v : List α) (n : Nat) (hn : n < v.length)
    (f : α → α) : vectorModify v (n : Int) f = .ok (v.set n (f v[n])) := by
  simp [vectorModify, vectorAt_natCast v n hn]

/-! ## The histogram -/

theorem sum_set_succ (d : List Nat) (i : Nat) (hi : i < d.length) :
    (d.set i (d[i] + 1)).sum = d.sum + 1 := by
  induction d generalizing i with
  | nil => simp at hi
  | cons a t ih =>
    cases i with
    | zero => simp; omega
    | succ n =>
      have hn : n < t.length := by simpa using hi
      simp [ih n hn]
      omega

theorem getD_set_succ (d : List Nat) (i : Nat) (hi : i < d.length) (j : Nat) :
    (d.set i (d[i] + 1)).getD j 0 = d.getD j 0 + (if i = j then 1 else 0) := by
  simp only [List.getD_eq_getElem?_getD, List.getElem?_set]
  by_cases hij : i = j
  · subst hij
    simp [hi, List.getElem?_eq_getElem hi]
  · simp [hij]

theorem FindKeyDistribution.loop_spec (h : HashFunction) (hp : h.functionPrime_ ≠ 0)
    (range : Nat) (hr : 0 < range) (keys : List Int) :
    ∀ d : List Nat, d.length = range →
      ∃ d', FindKeyDistribution.loop h range keys d = .ok d' ∧ d'.length = range ∧
        d'.sum = d.sum + keys.length ∧
        ∀ j, d'.getD j 0 = d.getD j 0 + (keys.map (fun key => h.slot key range)).count j := by
  induction keys with
  | nil =>
    intro d hd
    exact ⟨d, rfl, hd, by simp, by simp⟩
  | cons key rest ih =>
    intro d hd
    have hlt : h.slot key range < d.length := hd ▸ slot_lt h key range hr
    obtain ⟨d', h1, h2, h3, h4⟩ := ih (d.set (h.slot key range) (d[h.slot key range] + 1))
      (by simp [hd])
    refine ⟨d', ?_, h2, ?_, ?_⟩
    · simp only [FindKeyDistribution.loop, getValue_eq_slot h hp key range hr,
        vectorModify_natCast d _ hlt]
      exact h1
    · rw [h3, sum_set_succ d _ hlt]
      simp
      omega
    · intro j
      rw [h4 j, getD_set_succ d _ hlt j, List.map_cons, List.count_cons]
      simp only [beq_iff_eq]
      omega

theorem FindKeyDistribution_spec (h : HashFunction) (hp : h.functionPrime_ ≠ 0)
    (keys : List Int) :
    ∃ d, FindKeyDistribution h keys = .ok d ∧ d.length = keys.length ∧
      d.sum = keys.length ∧
      ∀ j, d.getD j 0 = (keys.map (fun key => h.slot key keys.length)).count j := by
  rcases Nat.eq_zero_or_pos keys.length with h0 | hpos
  · have hk : keys = [] := List.length_eq_zero.mp h0
    subst hk
    exact ⟨[], rfl, rfl, rfl, by simp⟩
  · obtain ⟨d, h1, h2, h3, h4⟩ := FindKeyDistribution.loop_spec h hp keys.length hpos keys
      (List.replicate keys.length 0) (by simp)
    refine ⟨d, h1, h2, ?_, ?_⟩
    · simpa using h3
    · intro j
      have h0 : (List.replicate keys.length 0).getD j 0 = 0 := by
        simp only [List.getD_eq_getElem?_getD, List.getElem?_replicate]
        split <;> rfl
      rw [h4 j, h0, Nat.zero_add]

theorem CalculateSumOfSquares_eq (d : List Nat) :
    CalculateSumOfSquares d = (((d.map (fun b => b * b)).sum : Nat) : Int) := by
  have gen : ∀ (l : List Nat) (acc : Int),
      l.foldl (fun currentSum bucketSize => currentSum + ((bucketSize * bucketSize : Nat) : Int))
        acc = acc + (((l.map (fun b => b * b)).sum : Nat) : Int) := by
    intro l
    induction l with
    | nil => intro acc; simp
    | cons a t ih =>
      intro acc
      simp only [List.foldl_cons, List.map_cons, List.sum_cons, ih]
      push_cast
      ring
  simpa [CalculateSumOfSquares] using gen d 0

theorem sum_le_sumsq (d : List Nat) : d.sum ≤ (d.map (fun b => b * b)).sum := by
  induction d with
  | nil => simp
  | cons a t ih =>
    have : a ≤ a * a := Nat.le_mul_self a
    simp only [List.sum_cons, List.map_cons]
    omega

/-- A list of naturals has sum of squares equal to its sum exactly when every
entry is 0 or 1. -/
theorem sumsq_eq_sum_iff (d : List Nat) :
    (d.map (fun b => b * b)).sum = d.sum ↔ ∀ b ∈ d, b ≤ 1 := by
  induction d with
  | nil => simp
  | cons a t ih =>
    have h1 : a ≤ a * a := Nat.le_mul_self a
    have h2 := sum_le_sumsq t
    simp only [List.sum_cons, List.map_cons, List.mem_cons, forall_eq_or_imp]
    constructor
    · intro hsum
      have ha : a * a = a := by omega
      have ht : (t.map (fun b => b * b)).sum = t.sum := by omega
      refine ⟨?_, ih.mp ht⟩
      by_contra hcon
      have : 2 ≤ a := by omega
      have : 2 * a ≤ a * a := Nat.mul_le_mul_right a this
      omega
    · rintro ⟨ha, ht⟩
      have : a * a = a := by
        interval_cases a <;> rfl
      rw [ih.mpr ht, this]

theorem forall_mem_le_one_iff_getD (d : List Nat) :
    (∀ b ∈ d, b ≤ 1) ↔ ∀ j, d.getD j 0 ≤ 1 := by
  constructor
  · intro hall j
    rw [List.getD_eq_getElem?_getD]
    by_cases hj : j < d.length
    · rw [List.getElem?_eq_getElem hj]
      exact hall _ (List.getElem_mem hj)
    · rw [List.getElem?_eq_none (by omega)]
      simp
  · intro hall b hb
    obtain ⟨j, hj, rfl⟩ := List.mem_iff_getElem.mp hb
    have := hall j
    rwa [List.getD_eq_getElem?_getD, List.getElem?_eq_getElem hj] at this

/-- The acceptance test of the inner loop, read on the histogram the source
computes: the sum of squares equals the number of keys exactly when the indices
of the keys over a table of `keys.length` entries are pairwise distinct. -/
theorem sumsq_eq_length_iff_nodup (h : HashFunction) (hp : h.functionPrime_ ≠ 0)
    (keys : List Int) (d : List Nat) (hd : FindKeyDistribution h keys = .ok d) :
    CalculateSumOfSquares d = (keys.length : Int) ↔
      (keys.map (fun key => h.slot key keys.length)).Nodup := by
  obtain ⟨d0, h1, _, h3, h4⟩ := FindKeyDistribution_spec h hp keys
  rw [hd] at h1
  cases h1
  have hsq : CalculateSumOfSquares d = (keys.length : Int) ↔
      (d.map (fun b => b * b)).sum = d.sum := by
    rw [CalculateSumOfSquares_eq, Int.ofNat_inj, h3]
  rw [hsq, sumsq_eq_sum_iff, forall_mem_le_one_iff_getD, List.nodup_iff_count_le_one]
  constructor
  · intro hall j
    rw [← h4 j]
    exact hall j
  · intro hall j
    rw [h4 j]
    exact hall j

theorem nodup_slot_sq (h : HashFunction) (keys : List Int) (k : Nat) (hk : 0 < k)
    (hn : (keys.map (fun key => h.slot key k)).Nodup) :
    (keys.map (fun key => h.slot key (k * k))).Nodup := by
  have e : keys.map (fun key => h.slot key k) =
      (keys.map (fun key => h.slot key (k * k))).map (fun i => i % k) := by
    rw [List.map_map]
    apply List.map_congr_left
    intro key _
    exact (slot_sq_mod h key k hk).symm
  rw [e] at hn
  exact hn.of_map _

/-! ## The inner level -/

theorem bucket_search_spec (keys : List Int) (gen gen' : RandomGenerator)
    (h : HashFunction) (hs : Bucket.Initialize.search keys gen = .ok (h, gen')) :
    ∃ pre draw, gen = pre ++ draw :: gen' ∧ h = GetRandomHashFunction draw ∧
      (∃ d, FindKeyDistribution h keys = .ok d ∧
        CalculateSumOfSquares d = (keys.length : Int)) ∧
      ∀ p ∈ pre, ∃ d, FindKeyDistribution (GetRandomHashFunction p) keys = .ok d ∧
        CalculateSumOfSquares d ≠ (keys.length : Int) := by
  induction gen with
  | nil => simp [Bucket.Initialize.search] at hs
  | cons draw rest ih =>
    obtain ⟨d, hd, -, -, -⟩ := FindKeyDistribution_spec (GetRandomHashFunction draw)
      kPrime_ne_zero keys
    simp only [Bucket.Initialize.search, hd] at hs
    by_cases hacc : CalculateSumOfSquares d = (keys.length : Int)
    · simp only [hacc, ne_eq, not_true_eq_false, if_false, Except.ok.injEq,
        Prod.mk.injEq] at hs
      obtain ⟨rfl, rfl⟩ := hs
      exact ⟨[], draw, rfl, rfl, ⟨d, hd, hacc⟩, by simp⟩
    · simp only [ne_eq, hacc, not_false_eq_true, if_true] at hs
      obtain ⟨pre, dr, e1, e2, e3, e4⟩ := ih hs
      refine ⟨draw :: pre, dr, by simp [e1], e2, e3, ?_⟩
      intro p hp
      rcases List.mem_cons.mp hp with rfl | hp
      · exact ⟨d, hd, hacc⟩
      · exact e4 p hp

theorem Bucket.Initialize.fill_spec (h : HashFunction) (hp : h.functionPrime_ ≠ 0)
    (n : Nat) (keys : List Int) (hn : keys = [] ∨ 0 < n) :
    ∀ boxes : List OptionalInt, boxes.length = n →
      ∃ boxes', Bucket.Initialize.fill h keys boxes = .ok boxes' ∧ boxes'.length = n ∧
        (∀ j, j ∉ keys.map (fun key => h.slot key n) → boxes'[j]? = boxes[j]?) ∧
        (∀ j, boxes'[j]? = boxes[j]? ∨
          ∃ key ∈ keys, h.slot key n = j ∧
            boxes'[j]? = some { value_ := key, isInitialized_ := true }) ∧
        ((keys.map (fun key => h.slot key n)).Nodup → ∀ key ∈ keys,
          boxes'[h.slot key n]? = some { value_ := key, isInitialized_ := true }) := by
  induction keys with
  | nil =>
    intro boxes hb
    exact ⟨boxes, rfl, hb, by simp, by simp, by simp⟩
  | cons key rest ih =>
    intro boxes hb
    have hpos : 0 < n := by
      rcases hn with h0 | h0
      · simp at h0
      · exact h0
    have hlt : h.slot key n < boxes.length := hb ▸ slot_lt h key n hpos
    obtain ⟨boxes', h1, h2, h3, h4, h5⟩ := ih (Or.inr hpos)
      (boxes.set (h.slot key n) (boxes[h.slot key n].Initialize key)) (by simp [hb])
    have hset : ∀ j, j ≠ h.slot key n →
        (boxes.set (h.slot key n) (boxes[h.slot key n].Initialize key))[j]? = boxes[j]? := by
      intro j hj
      rw [List.getElem?_set]
      simp [Ne.symm hj]
    have hself : (boxes.set (h.slot key n) (boxes[h.slot key n].Initialize key))[h.slot key n]?
        = some { value_ := key, isInitialized_ := true } := by
      rw [List.getElem?_set]
      simp [hlt, OptionalInt.Initialize]
    refine ⟨boxes', ?_, h2, ?_, ?_, ?_⟩
    · simp only [Bucket.Initialize.fill, hb, getValue_eq_slot h hp key n hpos]
      rw [vectorModify_natCast boxes _ hlt]
      exact h1
    · intro j hj
      simp only [List.map_cons, List.mem_cons, not_or] at hj
      rw [h3 j hj.2, hset j hj.1]
    · intro j
      rcases h4 j with e | ⟨key', hk', e1, e2⟩
      · by_cases hj : j = h.slot key n
        · right
          refine ⟨key, List.mem_cons_self _ _, hj.symm, ?_⟩
          rw [e, hj, hself]
        · left
          rw [e, hset j hj]
      · right
        exact ⟨key', List.mem_cons_of_mem _ hk', e1, e2⟩
    · intro hnd key' hk'
      simp only [List.map_cons, List.nodup_cons] at hnd
      rcases List.mem_cons.mp hk' with rfl | hk'
      · rw [h3 _ hnd.1, hself]
      · exact h5 hnd.2 key' hk'

/-- What a finished `Bucket::Initialize` leaves behind. -/
theorem bucket_initialize_spec (keys : List Int) (gen gen' : RandomGenerator) (b : Bucket)
    (hb : Bucket.Initialize keys gen = .ok (b, gen')) :
    b.bucketHash_.functionPrime_ = kPrime ∧
    b.boxes_.length = keys.length * keys.length ∧
    (keys.map (fun key => b.bucketHash_.slot key keys.length)).Nodup ∧
    (∀ key ∈ keys, b.boxes_[b.bucketHash_.slot key (keys.length * keys.length)]? =
      some { value_ := key, isInitialized_ := true }) ∧
    (∀ j box, b.boxes_[j]? = some box → box.isInitialized_ = true →
      box.value_ ∈ keys ∧ b.bucketHash_.slot box.value_ (keys.length * keys.length) = j) := by
  unfold Bucket.Initialize at hb
  cases hsearch : Bucket.Initialize.search keys gen with
  | error e => simp [hsearch] at hb
  | ok res =>
    obtain ⟨h, g⟩ := res
    obtain ⟨pre, draw, -, hdraw, ⟨d, hd, hacc⟩, -⟩ :=
      bucket_search_spec keys gen g h hsearch
    have hp : h.functionPrime_ ≠ 0 := by
      rw [hdraw]
      exact kPrime_ne_zero
    have hn : keys = [] ∨ 0 < keys.length * keys.length := by
      cases keys with
      | nil => exact Or.inl rfl
      | cons a t => exact Or.inr (by simp)
    obtain ⟨boxes', f1, f2, -, f4, f5⟩ := Bucket.Initialize.fill_spec h hp
      (keys.length * keys.length) keys hn
      (List.replicate (keys.length * keys.length) OptionalInt.null) (by simp)
    simp only [hsearch, f1, Except.ok.injEq, Prod.mk.injEq] at hb
    obtain ⟨rfl, rfl⟩ := hb
    have hnd := (sumsq_eq_length_iff_nodup h hp keys d hd).mp hacc
    refine ⟨by rw [hdraw]; rfl, f2, hnd, ?_, ?_⟩
    · rcases Nat.eq_zero_or_pos keys.length with h0 | hpos
      · have hk : keys = [] := List.length_eq_zero.mp h0
        subst hk
        simp
      · exact f5 (nodup_slot_sq h keys keys.length hpos hnd)
    · intro j box hj hinit
      rcases f4 j with e | ⟨key, hk, e1, e2⟩
      · rw [hj, List.getElem?_replicate] at e
        split at e
        · cases e
          simp [OptionalInt.null] at hinit
        · cases e
      · rw [hj] at e2
        cases e2
        exact ⟨hk, e1⟩

/-! ## The outer level -/

theorem fixedSet_search_spec (keys : List Int) (size : Int) (gen : RandomGenerator) :
    ∀ (m : Int) (h0 h : HashFunction) (gen' : RandomGenerator),
      FixedSet.Initialize.search keys size m h0 gen = .ok (h, gen') →
      (¬ m > kSizeBound * size ∧ h = h0 ∧ gen' = gen) ∨
      (m > kSizeBound * size ∧ ∃ pre draw, gen = pre ++ draw :: gen' ∧
        h = GetRandomHashFunction draw ∧
        (∃ d, FindKeyDistribution h keys = .ok d ∧
          CalculateSumOfSquares d ≤ kSizeBound * size) ∧
        ∀ p ∈ pre, ∃ d, FindKeyDistribution (GetRandomHashFunction p) keys = .ok d ∧
          CalculateSumOfSquares d > kSizeBound * size) := by
  induction gen with
  | nil =>
    intro m h0 h gen' hs
    by_cases hm : m > kSizeBound * size
    · simp [FixedSet.Initialize.search, hm] at hs
    · simp only [FixedSet.Initialize.search, hm, if_false, Except.ok.injEq,
        Prod.mk.injEq] at hs
      exact Or.inl ⟨hm, hs.1.symm, hs.2.symm⟩
  | cons draw rest ih =>
    intro m h0 h gen' hs
    by_cases hm : m > kSizeBound * size
    · right
      obtain ⟨d, hd, -, -, -⟩ := FindKeyDistribution_spec (GetRandomHashFunction draw)
        kPrime_ne_zero keys
      simp only [FixedSet.Initialize.search, hm, if_true, hd] at hs
      rcases ih _ _ _ _ hs with ⟨a1, a2, a3⟩ | ⟨a1, pre, dr, e1, e2, e3, e4⟩
      · refine ⟨hm, [], draw, by simp [a3], a2, ⟨d, a2 ▸ hd, not_lt.mp a1⟩, by simp⟩
      · refine ⟨hm, draw :: pre, dr, by simp [e1], e2, e3, ?_⟩
        intro p hp
        rcases List.mem_cons.mp hp with rfl | hp
        · exact ⟨d, hd, a1⟩
        · exact e4 p hp
    · simp only [FixedSet.Initialize.search, hm, if_false, Except.ok.injEq,
        Prod.mk.injEq] at hs
      exact Or.inl ⟨hm, hs.1.symm, hs.2.symm⟩

theorem FixedSet.Initialize.distribute_spec (h : HashFunction) (hp : h.functionPrime_ ≠ 0)
    (n : Nat) (keys : List Int) (hn : keys = [] ∨ 0 < n) :
    ∀ groups : List (List Int), groups.length = n →
      ∃ groups', FixedSet.Initialize.distribute h (n : Int) keys groups = .ok groups' ∧
        groups'.length = n ∧
        ∀ j, groups'[j]? =
          groups[j]?.map (fun group => group ++ keys.filter (fun key => h.slot key n = j)) := by
  induction keys with
  | nil =>
    intro groups hg
    exact ⟨groups, rfl, hg, by simp⟩
  | cons key rest ih =>
    intro groups hg
    have hpos : 0 < n := by
      rcases hn with h0 | h0
      · simp at h0
      · exact h0
    have hlt : h.slot key n < groups.length := hg ▸ slot_lt h key n hpos
    obtain ⟨groups', h1, h2, h3⟩ := ih (Or.inr hpos)
      (groups.set (h.slot key n) (groups[h.slot key n] ++ [key])) (by simp [hg])
    refine ⟨groups', ?_, h2, ?_⟩
    · simp only [FixedSet.Initialize.distribute, getValue_eq_slot h hp key n hpos]
      rw [vectorModify_natCast groups _ hlt]
      exact h1
    · intro j
      rw [h3 j, List.getElem?_set]
      by_cases hj : h.slot key n = j
      · subst hj
        simp [hlt, List.getElem?_eq_getElem hlt, List.filter_cons]
      · simp [hj, List.filter_cons]

theorem FixedSet.Initialize.buckets_spec (groups : List (List Int)) :
    ∀ (gen gen' : RandomGenerator) (bs : List Bucket),
      FixedSet.Initialize.buckets groups gen = .ok (bs, gen') →
      bs.length = groups.length ∧
      ∀ (j : Nat) (group : List Int) (b : Bucket),
        groups[j]? = some group → bs[j]? = some b →
        ∃ g g', Bucket.Initialize group g = .ok (b, g') := by
  induction groups with
  | nil =>
    intro gen gen' bs hb
    simp only [FixedSet.Initialize.buckets, Except.ok.injEq, Prod.mk.injEq] at hb
    obtain ⟨rfl, -⟩ := hb
    simp
  | cons group rest ih =>
    intro gen gen' bs hb
    unfold FixedSet.Initialize.buckets at hb
    cases h1 : Bucket.Initialize group gen with
    | error e => simp [h1] at hb
    | ok res1 =>
      obtain ⟨b, g1⟩ := res1
      cases h2 : FixedSet.Initialize.buckets rest g1 with
      | error e => simp [h1, h2] at hb
      | ok res2 =>
        obtain ⟨others, g2⟩ := res2
        simp only [h1, h2, Except.ok.injEq, Prod.mk.injEq] at hb
        obtain ⟨rfl, rfl⟩ := hb
        obtain ⟨i1, i2⟩ := ih g1 g2 others h2
        refine ⟨by simp [i1], ?_⟩
        intro j grp bk hg hbk
        cases j with
        | zero =>
          simp only [List.getElem?_cons_zero, Option.some.injEq] at hg hbk
          subst hg hbk
          exact ⟨gen, g1, h1⟩
        | succ j =>
          simp only [List.getElem?_cons_succ] at hg hbk
          exact i2 j grp bk hg hbk

/-- What a finished `FixedSet::Initialize` leaves behind. -/
theorem fixedSet_initialize_spec (keys : List Int) (gen gen' : RandomGenerator) (fs : FixedSet)
    (hfs : FixedSet.Initialize keys gen = .ok (fs, gen')) :
    fs.size_ = (keys.length : Int) ∧
    fs.tableHash_.functionPrime_ = kPrime ∧
    (∃ d, FindKeyDistribution fs.tableHash_ keys = .ok d ∧
      CalculateSumOfSquares d ≤ kSizeBound * (keys.length : Int)) ∧
    fs.buckets_.length = keys.length ∧
    ∀ (j : Nat) (b : Bucket), fs.buckets_[j]? = some b →
      ∃ g g', Bucket.Initialize
        (keys.filter (fun key => fs.tableHash_.slot key keys.length = j)) g = .ok (b, g') := by
  unfold FixedSet.Initialize at hfs
  simp only at hfs
  cases hsearch : FixedSet.Initialize.search keys (keys.length : Int)
      (kSizeBound * (keys.length : Int) + 1) HashFunction.default gen with
  | error e => simp [hsearch] at hfs
  | ok res =>
    obtain ⟨h, g1⟩ := res
    rcases fixedSet_search_spec keys _ gen _ _ h g1 hsearch with
      ⟨a1, -, -⟩ | ⟨-, pre, draw, -, hdraw, hacc, -⟩
    · exact absurd (by omega) a1
    · have hp : h.functionPrime_ ≠ 0 := by
        rw [hdraw]
        exact kPrime_ne_zero
      have hn : keys = [] ∨ 0 < keys.length := by
        cases keys with
        | nil => exact Or.inl rfl
        | cons a t => exact Or.inr (by simp)
      obtain ⟨groups, d1, d2, d3⟩ := FixedSet.Initialize.distribute_spec h hp keys.length
        keys hn (List.replicate keys.length []) (by simp)
      simp only [hsearch, d1] at hfs
      cases hbs : FixedSet.Initialize.buckets groups g1 with
      | error e => simp [hbs] at hfs
      | ok res2 =>
        obtain ⟨bs, g2⟩ := res2
        simp only [hbs, Except.ok.injEq, Prod.mk.injEq] at hfs
        obtain ⟨rfl, rfl⟩ := hfs
        obtain ⟨b1, b2⟩ := FixedSet.Initialize.buckets_spec groups g1 g2 bs hbs
        refine ⟨rfl, by rw [hdraw]; rfl, hacc, by rw [b1, d2], ?_⟩
        intro j b hb
        have hb' : bs[j]? = some b := hb
        have hj : j < keys.length := by
          have := (List.getElem?_eq_some_iff.mp hb').1
          omega
        apply b2 j _ b _ hb
        rw [d3 j, List.getElem?_replicate]
        simp [hj]

theorem bucket_contains_of_mem (keys : List Int) (gen gen' : RandomGenerator) (b : Bucket)
    (hb : Bucket.Initialize keys gen = .ok (b, gen')) (key : Int) (hk : key ∈ keys) :
    b.Contains key = .ok true := by
  obtain ⟨s1, s2, -, s4, -⟩ := bucket_initialize_spec keys gen gen' b hb
  have hpos : 0 < keys.length := List.length_pos_of_mem hk
  have hsq : 0 < b.boxes_.length := by
    rw [s2]
    exact Nat.mul_pos hpos hpos
  have hp : b.bucketHash_.functionPrime_ ≠ 0 := by
    rw [s1]
    exact kPrime_ne_zero
  have hne : b.boxes_.isEmpty = false := by
    cases hbx : b.boxes_ with
    | nil => simp [hbx] at hsq
    | cons a t => rfl
  have hlt := slot_lt b.bucketHash_ key b.boxes_.length hsq
  have hbox := s4 key hk
  rw [← s2, List.getElem?_eq_getElem hlt] at hbox
  simp only [Bucket.Contains, hne, getValue_eq_slot b.bucketHash_ hp key _ hsq,
    vectorAt_natCast b.boxes_ _ hlt]
  rw [Option.some.inj hbox]
  simp

theorem bucket_contains_of_not_mem (keys : List Int) (gen gen' : RandomGenerator) (b : Bucket)
    (hb : Bucket.Initialize keys gen = .ok (b, gen')) (q : Int) (hq : q ∉ keys) :
    b.Contains q = .ok false := by
  obtain ⟨s1, -, -, -, s5⟩ := bucket_initialize_spec keys gen gen' b hb
  have hp : b.bucketHash_.functionPrime_ ≠ 0 := by
    rw [s1]
    exact kPrime_ne_zero
  cases hbx : b.boxes_ with
  | nil => simp [Bucket.Contains, hbx]
  | cons a t =>
    have hsq : 0 < b.boxes_.length := by simp [hbx]
    have hne : b.boxes_.isEmpty = false := by simp [hbx]
    have hlt := slot_lt b.bucketHash_ q b.boxes_.length hsq
    have hbox := s5 (b.bucketHash_.slot q b.boxes_.length) _ (List.getElem?_eq_getElem hlt)
    simp only [Bucket.Contains, hne, getValue_eq_slot b.bucketHash_ hp q _ hsq,
      vectorAt_natCast b.boxes_ _ hlt]
    cases hi : (b.boxes_[b.bucketHash_.slot q b.boxes_.length]).isInitialized_ with
    | false => simp
    | true =>
      have hv := (hbox hi).1
      have hneq : (b.boxes_[b.bucketHash_.slot q b.boxes_.length]).value_ ≠ q := by
        intro e
        exact hq (e ▸ hv)
      simp [hneq]

/-- The bucket a query is routed to, for a set built from at least one key. -/
theorem FixedSet.Contains_eq_bucket (keys : List Int) (gen gen' : RandomGenerator)
    (fs : FixedSet) (hfs : FixedSet.Initialize keys gen = .ok (fs, gen'))
    (hpos : 0 < keys.length) (q : Int) :
    ∃ b g g', Bucket.Initialize
        (keys.filter (fun key => fs.tableHash_.slot key keys.length =
          fs.tableHash_.slot q keys.length)) g = .ok (b, g') ∧
      fs.Contains q = b.Contains q := by
  obtain ⟨s1, s2, -, s4, s5⟩ := fixedSet_initialize_spec keys gen gen' fs hfs
  have hp : fs.tableHash_.functionPrime_ ≠ 0 := by
    rw [s2]
    exact kPrime_ne_zero
  have hlt : fs.tableHash_.slot q keys.length < fs.buckets_.length := by
    rw [s4]
    exact slot_lt _ q _ hpos
  obtain ⟨g, g', hb⟩ := s5 _ _ (List.getElem?_eq_getElem hlt)
  refine ⟨_, g, g', hb, ?_⟩
  simp only [FixedSet.Contains, s1, getValue_eq_slot fs.tableHash_ hp q _ hpos,
    vectorAt_natCast fs.buckets_ _ hlt]

theorem fixedSet_contains_of_mem (keys : List Int) (gen gen' : RandomGenerator) (fs : FixedSet)
    (hfs : FixedSet.Initialize keys gen = .ok (fs, gen')) (k : Int) (hk : k ∈ keys) :
    fs.Contains k = .ok true := by
  obtain ⟨b, g, g', hb, hc⟩ := FixedSet.Contains_eq_bucket keys gen gen' fs hfs
    (List.length_pos_of_mem hk) k
  rw [hc]
  exact bucket_contains_of_mem _ g g' b hb k (by simp [hk])

theorem fixedSet_contains_of_not_mem (keys : List Int) (hne : keys ≠ [])
    (gen gen' : RandomGenerator) (fs : FixedSet)
    (hfs : FixedSet.Initialize keys gen = .ok (fs, gen')) (q : Int) (hq : q ∉ keys) :
    fs.Contains q = .ok false := by
  obtain ⟨b, g, g', hb, hc⟩ := FixedSet.Contains_eq_bucket keys gen gen' fs hfs
    (List.length_pos.mpr hne) q
  rw [hc]
  exact bucket_contains_of_not_mem _ g g' b hb q (by simp [hq])

theorem FixedSet.Contains_eq_decide (keys : List Int) (hne : keys ≠ [])
    (gen gen' : RandomGenerator) (fs : FixedSet)
    (hfs : FixedSet.Initialize keys gen = .ok (fs, gen')) (q : Int) :
    fs.Contains q = .ok (decide (q ∈ keys)) := by
  by_cases hq : q ∈ keys
  · rw [fixedSet_contains_of_mem keys gen gen' fs hfs q hq]
    simp [hq]
  · rw [fixedSet_contains_of_not_mem keys hne gen gen' fs hfs q hq]
    simp [hq]

theorem findInts.loop_eq (fs : FixedSet) (f : Int → Bool)
    (hf : ∀ q, fs.Contains q = .ok (f q)) (queries : List Int) :
    ∀ answer, findInts.loop fs queries answer = .ok (answer ++ queries.map f) := by
  induction queries with
  | nil => intro answer; simp [findInts.loop]
  | cons q rest ih =>
    intro answer
    simp only [findInts.loop, hf q, ih, List.map_cons, List.append_assoc, List.singleton_append]

theorem count_map_eq_length_filter (keys : List Int) (f : Int → Nat) (j : Nat) :
    (keys.map f).count j = (keys.filter (fun key => f key = j)).length := by
  rw [List.count_eq_countP, List.countP_map, List.countP_eq_length_filter]
  congr 1

/-- The table sizes of the buckets are the squares of the entries of the
histogram of the outer hash. -/
theorem FixedSet.Initialize_boxes (keys : List Int) (gen gen' : RandomGenerator)
    (fs : FixedSet) (hfs : FixedSet.Initialize keys gen = .ok (fs, gen')) (d : List Nat)
    (hd : FindKeyDistribution fs.tableHash_ keys = .ok d) :
    fs.buckets_.map (fun b => b.boxes_.length) = d.map (fun c => c * c) := by
  obtain ⟨-, s2, -, s4, s5⟩ := fixedSet_initialize_spec keys gen gen' fs hfs
  have hp : fs.tableHash_.functionPrime_ ≠ 0 := by
    rw [s2]
    exact kPrime_ne_zero
  obtain ⟨d0, h1, h2, -, h4⟩ := FindKeyDistribution_spec fs.tableHash_ hp keys
  rw [hd] at h1
  cases h1
  apply List.ext_getElem
  · simp [s4, h2]
  · intro n hn1 hn2
    have hn : n < fs.buckets_.length := by simpa using hn1
    have hnd : n < d.length := by simpa using hn2
    obtain ⟨g, g', hb⟩ := s5 n _ (List.getElem?_eq_getElem hn)
    obtain ⟨-, b2, -, -, -⟩ := bucket_initialize_spec _ g g' _ hb
    have hc := h4 n
    rw [List.getD_eq_getElem?_getD, List.getElem?_eq_getElem hnd, Option.getD_some,
      count_map_eq_length_filter] at hc
    rw [List.getElem_map, List.getElem_map, b2, hc]

theorem getValue_one (h : HashFunction) (hp : h.functionPrime_ ≠ 0) (key : Int) :
    h.getValue key 1 = .ok 0 := by
  have h1 := getValue_eq_slot h hp key 1 Nat.one_pos
  have h2 := slot_lt h key 1 Nat.one_pos
  have h3 : h.slot key 1 = 0 := by omega
  rw [h3] at h1
  exact h1

theorem getValue_one_sampled (draw : Int × Int) (key : Int) :
    (GetRandomHashFunction draw).getValue key 1 = .ok 0 :=
  getValue_one _ kPrime_ne_zero key

theorem FindKeyDistribution_singleton (draw : Int × Int) (x : Int) :
    FindKeyDistribution (GetRandomHashFunction draw) [x] = .ok [1] := by
  simp [FindKeyDistribution, FindKeyDistribution.loop, getValue_one_sampled, vectorModify,
    vectorAt]

theorem bucket_search_singleton (x : Int) (draw : Int × Int)
    (gen : RandomGenerator) :
    Bucket.Initialize.search [x] (draw :: gen) = .ok (GetRandomHashFunction draw, gen) := by
  simp [Bucket.Initialize.search, FindKeyDistribution_singleton, CalculateSumOfSquares]

theorem fixedSet_search_singleton (x : Int) (draw : Int × Int)
    (gen : RandomGenerator) :
    FixedSet.Initialize.search [x] 1 (kSizeBound * 1 + 1) HashFunction.default (draw :: gen) =
      .ok (GetRandomHashFunction draw, gen) := by
  have h6 : kSizeBound * 1 + 1 > kSizeBound * 1 := by decide
  have h1 : ¬ (1 : Int) > kSizeBound * 1 := by decide
  rw [FixedSet.Initialize.search]
  simp only [h6, if_true, FindKeyDistribution_singleton]
  have hs : CalculateSumOfSquares [1] = 1 := by decide
  rw [hs]
  cases gen with
  | nil => simp only [FixedSet.Initialize.search, h1, if_false]
  | cons a t => simp only [FixedSet.Initialize.search, h1, if_false]

theorem bucket_initialize_singleton (x : Int) (draw : Int × Int) (gen : RandomGenerator) :
    Bucket.Initialize [x] (draw :: gen) =
      .ok ({ boxes_ := [{ value_ := x, isInitialized_ := true }],
             bucketHash_ := GetRandomHashFunction draw }, gen) := by
  simp [Bucket.Initialize, bucket_search_singleton, Bucket.Initialize.fill,
    getValue_one_sampled, vectorModify, vectorAt, OptionalInt.Initialize]

theorem fixedSet_initialize_singleton (x : Int) (d1 d2 : Int × Int) (rest : RandomGenerator) :
    FixedSet.Initialize [x] (d1 :: d2 :: rest) =
      .ok ({ buckets_ := [{ boxes_ := [{ value_ := x, isInitialized_ := true }],
                            bucketHash_ := GetRandomHashFunction d2 }],
             size_ := 1,
             tableHash_ := GetRandomHashFunction d1 }, rest) := by
  have hs := fixedSet_search_singleton x d1 (d2 :: rest)
  simp only [FixedSet.Initialize, List.length_singleton, Nat.cast_one, hs]
  simp [FixedSet.Initialize.distribute, getValue_one_sampled, vectorModify, vectorAt,
    FixedSet.Initialize.buckets, bucket_initialize_singleton]

/-! ## Further facts for the inner level -/

theorem bucket_initialize_nil (draw : Int × Int) (rest : RandomGenerator) :
    Bucket.Initialize [] (draw :: rest) =
      .ok ({ boxes_ := [], bucketHash_ := GetRandomHashFunction draw }, rest) := by
  simp [Bucket.Initialize, Bucket.Initialize.search, FindKeyDistribution,
    FindKeyDistribution.loop, CalculateSumOfSquares, Bucket.Initialize.fill]

theorem getValue_eq_ok_iff_slot (h : HashFunction) (hp : h.functionPrime_ ≠ 0) (key : Int)
    (size : Nat) (hs : 0 < size) (i : Nat) :
    h.getValue key size = .ok (i : Int) ↔ h.slot key size = i := by
  rw [getValue_eq_slot h hp key size hs]
  constructor
  · intro e
    exact Int.ofNat_inj.mp (Except.ok.inj e)
  · intro e
    rw [e]

theorem map_getValue_eq (h : HashFunction) (hp : h.functionPrime_ ≠ 0) (keys : List Int)
    (size : Nat) (hs : 0 < size) :
    keys.map (fun key => h.getValue key size) =
      (keys.map (fun key => h.slot key size)).map
        (fun (i : Nat) => (Except.ok (i : Int) : Except Fault Int)) := by
  rw [List.map_map]
  apply List.map_congr_left
  intro key _
  exact getValue_eq_slot h hp key size hs

theorem nodup_map_getValue_iff (h : HashFunction) (hp : h.functionPrime_ ≠ 0)
    (keys : List Int) (size : Nat) (hs : 0 < size) :
    (keys.map (fun key => h.getValue key size)).Nodup ↔
      (keys.map (fun key => h.slot key size)).Nodup := by
  rw [map_getValue_eq h hp keys size hs]
  refine List.nodup_map_iff ?_
  intro a b e
  exact Int.ofNat_inj.mp (Except.ok.inj e)

/-! ## The hash without overflow -/

theorem wrapInt64_of_fits (x : Int) (hx : fitsInt64 x) : wrapInt64 x = x := by
  unfold fitsInt64 at hx
  unfold wrapInt64
  omega

theorem linear_eq_exact (h : HashFunction) (key : Int) (h1 : fitsInt64 (h.slope_ * key))
    (h2 : fitsInt64 (h.slope_ * key + h.intercept_)) : h.linear key = h.exactLinear key := by
  unfold HashFunction.linear HashFunction.exactLinear
  rw [wrapInt64_of_fits _ h1, wrapInt64_of_fits _ h2]

/-! ## The groups of the outer level -/

theorem filter_getValue_eq (h : HashFunction) (hp : h.functionPrime_ ≠ 0) (keys : List Int)
    (size : Nat) (hs : 0 < size) (i : Nat) :
    keys.filter (fun key => h.getValue key size = .ok (i : Int)) =
      keys.filter (fun key => h.slot key size = i) := by
  apply List.filter_congr
  intro key _
  rw [decide_eq_decide]
  exact getValue_eq_ok_iff_slot h hp key size hs i

/-! ## The slot table after the fill loop -/

theorem countP_set_Initialize (boxes : List OptionalInt) (i : Nat) (hi : i < boxes.length)
    (hu : boxes[i].isInitialized_ = false) (key : Int) :
    (boxes.set i (boxes[i].Initialize key)).countP (fun box => box.isInitialized_) =
      boxes.countP (fun box => box.isInitialized_) + 1 := by
  induction boxes generalizing i with
  | nil => simp at hi
  | cons a t ih =>
    cases i with
    | zero =>
      have ha : a.isInitialized_ = false := by simpa using hu
      simp [List.countP_cons, ha, OptionalInt.Initialize]
    | succ n =>
      have hn : n < t.length := by simpa using hi
      have hun : t[n].isInitialized_ = false := by simpa using hu
      simp only [List.set_cons_succ, List.getElem_cons_succ, List.countP_cons, ih n hn hun]
      omega

theorem Bucket.Initialize.fill_count (h : HashFunction) (hp : h.functionPrime_ ≠ 0)
    (n : Nat) (keys : List Int) (hn : keys = [] ∨ 0 < n) :
    ∀ boxes boxes' : List OptionalInt, boxes.length = n →
      (keys.map (fun key => h.slot key n)).Nodup →
      (∀ key ∈ keys, ∀ box, boxes[h.slot key n]? = some box → box.isInitialized_ = false) →
      Bucket.Initialize.fill h keys boxes = .ok boxes' →
      boxes'.countP (fun box => box.isInitialized_) =
        boxes.countP (fun box => box.isInitialized_) + keys.length := by
  induction keys with
  | nil =>
    intro boxes boxes' _ _ _ hf
    simp only [Bucket.Initialize.fill, Except.ok.injEq] at hf
    subst hf
    simp
  | cons key rest ih =>
    intro boxes boxes' hb hnd hun hf
    have hpos : 0 < n := by
      rcases hn with h0 | h0
      · simp at h0
      · exact h0
    have hlt : h.slot key n < boxes.length := hb ▸ slot_lt h key n hpos
    simp only [List.map_cons, List.nodup_cons] at hnd
    simp only [Bucket.Initialize.fill, hb, getValue_eq_slot h hp key n hpos] at hf
    rw [vectorModify_natCast boxes _ hlt] at hf
    simp only at hf
    have hu0 : boxes[h.slot key n].isInitialized_ = false :=
      hun key (List.mem_cons_self _ _) _ (List.getElem?_eq_getElem hlt)
    have := ih (Or.inr hpos) (boxes.set (h.slot key n) (boxes[h.slot key n].Initialize key))
      boxes' (by simp [hb]) hnd.2 ?_ hf
    · rw [this, countP_set_Initialize boxes _ hlt hu0]
      simp only [List.length_cons]
      omega
    · intro key' hk' box hbox
      have hne : h.slot key n ≠ h.slot key' n := by
        intro e
        exact hnd.1 (List.mem_map.mpr ⟨key', hk', e.symm⟩)
      rw [List.getElem?_set] at hbox
      simp only [hne, if_false] at hbox
      exact hun key' (List.mem_cons_of_mem _ hk') box hbox

/-- The parts of a finished `Bucket::Initialize`: the accepted hash and the
result of the fill loop on the table of empty slots. -/
theorem bucket_initialize_fill (keys : List Int) (gen gen' : RandomGenerator) (b : Bucket)
    (hb : Bucket.Initialize keys gen = .ok (b, gen')) :
    Bucket.Initialize.search keys gen = .ok (b.bucketHash_, gen') ∧
      Bucket.Initialize.fill b.bucketHash_ keys
        (List.replicate (keys.length * keys.length) OptionalInt.null) = .ok b.boxes_ := by
  unfold Bucket.Initialize at hb
  cases hsearch : Bucket.Initialize.search keys gen with
  | error e => simp [hsearch] at hb
  | ok res =>
    obtain ⟨h, g⟩ := res
    simp only [hsearch] at hb
    cases hfill : Bucket.Initialize.fill h keys
        (List.replicate (keys.length * keys.length) OptionalInt.null) with
    | error e => simp [hfill] at hb
    | ok boxes =>
      simp only [hfill, Except.ok.injEq, Prod.mk.injEq] at hb
      obtain ⟨rfl, rfl⟩ := hb
      exact ⟨rfl, hfill⟩

/-! ## The prime -/

theorem noDivisorFrom_spec (n : Nat) :
    ∀ d lo, noDivisorFrom n d lo = true → ∀ m, lo ≤ m → m < lo + 2 ^ d → ¬ m ∣ n := by
  intro d
  induction d with
  | zero =>
    intro lo h m h1 h2 hdvd
    have hm : m = lo := by simp at h2; omega
    subst hm
    have := Nat.mod_eq_zero_of_dvd hdvd
    simp [noDivisorFrom, this] at h
  | succ d ih =>
    intro lo h m h1 h2 hdvd
    simp only [noDivisorFrom, Bool.and_eq_true] at h
    by_cases hlt : m < lo + 2 ^ d
    · exact ih lo h.1 m h1 hlt hdvd
    · refine ih (lo + 2 ^ d) h.2 m (by omega) ?_ hdvd
      rw [pow_succ] at h2
      omega

theorem noDivisorFrom_kPrime : noDivisorFrom 10000000019 17 2 = true := by decide!

theorem prime_10000000019 : Nat.Prime 10000000019 := by
  rw [Nat.prime_def_le_sqrt]
  refine ⟨by norm_num, fun m h2 hle hdvd => ?_⟩
  have hmm : m * m ≤ 10000000019 := Nat.le_sqrt.mp hle
  have hlt : m < 2 + 2 ^ 17 := by
    by_contra hcon
    have h3 : 131074 ≤ m := by
      have : (2 : Nat) + 2 ^ 17 = 131074 := by norm_num
      omega
    have : 131074 * 131074 ≤ m * m := Nat.mul_le_mul h3 h3
    omega
  exact noDivisorFrom_spec _ 17 2 noDivisorFrom_kPrime m h2 hlt hdvd

/-! ## Runs that do not finish -/

theorem bucket_search_error (keys : List Int) (gen : RandomGenerator) (e : Fault)
    (he : Bucket.Initialize.search keys gen = .error e) : e = .drawsExhausted := by
  induction gen with
  | nil =>
    simp only [Bucket.Initialize.search, Except.error.injEq] at he
    exact he.symm
  | cons draw rest ih =>
    obtain ⟨d, hd, -, -, -⟩ := FindKeyDistribution_spec (GetRandomHashFunction draw)
      kPrime_ne_zero keys
    simp only [Bucket.Initialize.search, hd] at he
    by_cases hacc : CalculateSumOfSquares d = (keys.length : Int)
    · simp [hacc] at he
    · simp only [ne_eq, hacc, not_false_eq_true, if_true] at he
      exact ih he

theorem bucket_initialize_error (keys : List Int) (gen : RandomGenerator) (e : Fault)
    (he : Bucket.Initialize keys gen = .error e) : e = .drawsExhausted := by
  unfold Bucket.Initialize at he
  cases hsearch : Bucket.Initialize.search keys gen with
  | error e' =>
    simp only [hsearch, Except.error.injEq] at he
    subst he
    exact bucket_search_error keys gen e' hsearch
  | ok res =>
    obtain ⟨h, g⟩ := res
    obtain ⟨pre, draw, -, hdraw, -, -⟩ := bucket_search_spec keys gen g h hsearch
    have hp : h.functionPrime_ ≠ 0 := by
      rw [hdraw]
      exact kPrime_ne_zero
    have hn : keys = [] ∨ 0 < keys.length * keys.length := by
      cases keys with
      | nil => exact Or.inl rfl
      | cons a t => exact Or.inr (by simp)
    obtain ⟨boxes', f1, -, -, -, -⟩ := Bucket.Initialize.fill_spec h hp
      (keys.length * keys.length) keys hn
      (List.replicate (keys.length * keys.length) OptionalInt.null) (by simp)
    simp [hsearch, f1] at he

theorem nodup_of_nodup_map_slot (h : HashFunction) (keys : List Int) (n : Nat)
    (hn : (keys.map (fun key => h.slot key n)).Nodup) : keys.Nodup :=
  hn.of_map _

theorem bucket_search_dup (keys : List Int) (hdup : ¬ keys.Nodup) (gen : RandomGenerator) :
    Bucket.Initialize.search keys gen = .error .drawsExhausted := by
  cases hs : Bucket.Initialize.search keys gen with
  | error e => rw [bucket_search_error keys gen e hs]
  | ok res =>
    obtain ⟨h, g⟩ := res
    obtain ⟨pre, draw, -, hdraw, ⟨d, hd, hacc⟩, -⟩ := bucket_search_spec keys gen g h hs
    have hp : h.functionPrime_ ≠ 0 := by
      rw [hdraw]
      exact kPrime_ne_zero
    exact absurd (nodup_of_nodup_map_slot h keys _
      ((sumsq_eq_length_iff_nodup h hp keys d hd).mp hacc)) hdup

theorem bucket_initialize_dup (keys : List Int) (hdup : ¬ keys.Nodup) (gen : RandomGenerator) :
    Bucket.Initialize keys gen = .error .drawsExhausted := by
  simp [Bucket.Initialize, bucket_search_dup keys hdup gen]

theorem fixedSet_search_error (keys : List Int) (size : Int) (gen : RandomGenerator) :
    ∀ (m : Int) (h0 : HashFunction) (e : Fault),
      FixedSet.Initialize.search keys size m h0 gen = .error e → e = .drawsExhausted := by
  induction gen with
  | nil =>
    intro m h0 e he
    by_cases hm : m > kSizeBound * size
    · simp only [FixedSet.Initialize.search, hm, if_true, Except.error.injEq] at he
      exact he.symm
    · simp [FixedSet.Initialize.search, hm] at he
  | cons draw rest ih =>
    intro m h0 e he
    by_cases hm : m > kSizeBound * size
    · obtain ⟨d, hd, -, -, -⟩ := FindKeyDistribution_spec (GetRandomHashFunction draw)
        kPrime_ne_zero keys
      simp only [FixedSet.Initialize.search, hm, if_true, hd] at he
      exact ih _ _ e he
    · simp [FixedSet.Initialize.search, hm] at he

theorem buckets_error (groups : List (List Int)) :
    ∀ (gen : RandomGenerator) (e : Fault),
      FixedSet.Initialize.buckets groups gen = .error e → e = .drawsExhausted := by
  induction groups with
  | nil =>
    intro gen e he
    simp [FixedSet.Initialize.buckets] at he
  | cons group rest ih =>
    intro gen e he
    unfold FixedSet.Initialize.buckets at he
    cases h1 : Bucket.Initialize group gen with
    | error e' =>
      simp only [h1, Except.error.injEq] at he
      subst he
      exact bucket_initialize_error group gen e' h1
    | ok res1 =>
      obtain ⟨b, g1⟩ := res1
      cases h2 : FixedSet.Initialize.buckets rest g1 with
      | error e' =>
        simp only [h1, h2, Except.error.injEq] at he
        subst he
        exact ih g1 e' h2
      | ok res2 =>
        obtain ⟨others, g2⟩ := res2
        simp [h1, h2] at he

theorem fixedSet_initialize_error (keys : List Int) (gen : RandomGenerator) (e : Fault)
    (he : FixedSet.Initialize keys gen = .error e) : e = .drawsExhausted := by
  unfold FixedSet.Initialize at he
  simp only at he
  cases hsearch : FixedSet.Initialize.search keys (keys.length : Int)
      (kSizeBound * (keys.length : Int) + 1) HashFunction.default gen with
  | error e' =>
    simp only [hsearch, Except.error.injEq] at he
    subst he
    exact fixedSet_search_error keys _ gen _ _ e' hsearch
  | ok res =>
    obtain ⟨h, g1⟩ := res
    rcases fixedSet_search_spec keys _ gen _ _ h g1 hsearch with
      ⟨a1, -, -⟩ | ⟨-, pre, draw, -, hdraw, -, -⟩
    · exact absurd (by omega) a1
    · have hp : h.functionPrime_ ≠ 0 := by
        rw [hdraw]
        exact kPrime_ne_zero
      have hn : keys = [] ∨ 0 < keys.length := by
        cases keys with
        | nil => exact Or.inl rfl
        | cons a t => exact Or.inr (by simp)
      obtain ⟨groups, d1, -, -⟩ := FixedSet.Initialize.distribute_spec h hp keys.length
        keys hn (List.replicate keys.length []) (by simp)
      simp only [hsearch, d1] at he
      cases hbs : FixedSet.Initialize.buckets groups g1 with
      | error e' =>
        simp only [hbs, Except.error.injEq] at he
        subst he
        exact buckets_error groups g1 e' hbs
      | ok res2 =>
        obtain ⟨bs, g2⟩ := res2
        simp [hbs] at he

theorem fixedSet_initialize_dup (keys : List Int) (hdup : ¬ keys.Nodup)
    (gen : RandomGenerator) : FixedSet.Initialize keys gen = .error .drawsExhausted := by
  cases hfs : FixedSet.Initialize keys gen with
  | error e => rw [fixedSet_initialize_error keys gen e hfs]
  | ok res =>
    obtain ⟨fs, g⟩ := res
    exfalso
    obtain ⟨-, -, -, s4, s5⟩ := fixedSet_initialize_spec keys gen g fs hfs
    obtain ⟨x, hx⟩ : ∃ x, 1 < keys.count x := by
      by_contra hcon
      push_neg at hcon
      exact hdup (List.nodup_iff_count_le_one.mpr hcon)
    have hxmem : x ∈ keys := List.count_pos_iff.mp (by omega)
    have hpos : 0 < keys.length := List.length_pos_of_mem hxmem
    have hlt : fs.tableHash_.slot x keys.length < fs.buckets_.length := by
      rw [s4]
      exact slot_lt _ x _ hpos
    obtain ⟨g1, g2, hb⟩ := s5 _ _ (List.getElem?_eq_getElem hlt)
    obtain ⟨-, -, b3, -, -⟩ := bucket_initialize_spec _ g1 g2 _ hb
    have hnd := nodup_of_nodup_map_slot _ _ _ b3
    have hc := List.nodup_iff_count_le_one.mp hnd x
    rw [List.count_filter (by simp)] at hc
    omega

/-! ## The claims -/

/-- The worked example meets the preconditions of the construction: the keys
are pairwise distinct 32-bit integers and every draw is within the ranges of
the sampler. -/
theorem example_wellFormed :
    exampleKeys ≠ [] ∧ exampleKeys.Nodup ∧ (∀ k ∈ exampleKeys, isInt32 k) ∧
      ∀ d ∈ exampleDraws, validDraw d := by
  decide

/-- C1. Membership correctness: whenever `FixedSet::Initialize` finishes on a
key list (for any outcome of the draws), `FixedSet::Contains` returns true for
every key of the list. Lists of pairwise distinct 32-bit keys and draws within
the ranges of the sampler are particular cases. -/
theorem membership_correctness (keys : List Int) (gen gen' : RandomGenerator) (fs : FixedSet)
    (hfs : FixedSet.Initialize keys gen = .ok (fs, gen')) (k : Int) (hk : k ∈ keys) :
    fs.Contains k = .ok true :=
  fixedSet_contains_of_mem keys gen gen' fs hfs k hk

theorem membership_correctness_witness :
    (FixedSet.Initialize exampleKeys exampleDraws = .ok (exampleSet, [(11, 5)]) ∧
      (8 : Int) ∈ exampleKeys) ∧ exampleSet.Contains 8 = .ok true :=
  ⟨⟨by decide, by decide⟩,
    membership_correctness exampleKeys exampleDraws [(11, 5)] exampleSet (by decide) 8
      (by decide)⟩

/-- C2. No false positives: for a non-empty key list, any finished construction
and any integer `q` that is not in the list, `FixedSet::Contains` returns
false. -/
theorem no_false_positives (keys : List Int) (hne : keys ≠ []) (gen gen' : RandomGenerator)
    (fs : FixedSet) (hfs : FixedSet.Initialize keys gen = .ok (fs, gen')) (q : Int)
    (hq : q ∉ keys) : fs.Contains q = .ok false :=
  fixedSet_contains_of_not_mem keys hne gen gen' fs hfs q hq

theorem no_false_positives_witness :
    (exampleKeys ≠ [] ∧
      FixedSet.Initialize exampleKeys exampleDraws = .ok (exampleSet, [(11, 5)]) ∧
      (10 : Int) ∉ exampleKeys) ∧ exampleSet.Contains 10 = .ok false :=
  ⟨⟨by decide, by decide, by decide⟩,
    no_false_positives exampleKeys (by decide) exampleDraws [(11, 5)] exampleSet (by decide) 10
      (by decide)⟩

/-- C3. Empty set, evaluated on the code: `FixedSet::Initialize` on the empty
key list consumes one draw and yields a set with `size_ = 0` and no bucket, and
`FixedSet::Contains` on it evaluates `getValue(q, 0)`, a remainder by zero,
instead of returning false. -/
theorem empty_set_contains_divides_by_zero :
    FixedSet.Initialize [] [(1, 0)] = .ok (emptySet, []) ∧
      emptySet.Contains 7 = .error Fault.divisionByZero ∧
      emptySet.tableHash_.getValue 7 emptySet.size_ = .error Fault.divisionByZero := by
  decide

/-- C4. `findInts` answers the queries in order: for a non-empty key list and a
finished construction, the result is the list of the answers "the query is an
element of the key list", one per query and in the order of the queries. -/
theorem findInts_answers_in_order (keys : List Int) (hne : keys ≠ []) (queries : List Int)
    (gen gen' : RandomGenerator) (fs : FixedSet)
    (hfs : FixedSet.Initialize keys gen = .ok (fs, gen')) :
    findInts keys queries gen = .ok (queries.map (fun q => decide (q ∈ keys))) ∧
      ∀ answer, findInts keys queries gen = .ok answer →
        answer.length = queries.length ∧
        ∀ (i : Nat) (h1 : i < answer.length) (h2 : i < queries.length),
          (answer[i] = true ↔ queries[i] ∈ keys) := by
  have hmain : findInts keys queries gen = .ok (queries.map (fun q => decide (q ∈ keys))) := by
    simp only [findInts, hfs]
    rw [findInts.loop_eq fs (fun q => decide (q ∈ keys))
      (FixedSet.Contains_eq_decide keys hne gen gen' fs hfs) queries []]
    simp
  refine ⟨hmain, ?_⟩
  intro answer ha
  rw [hmain] at ha
  cases ha
  refine ⟨by simp, ?_⟩
  intro i h1 h2
  simp

theorem findInts_answers_in_order_witness :
    (exampleKeys ≠ [] ∧
      FixedSet.Initialize exampleKeys exampleDraws = .ok (exampleSet, [(11, 5)])) ∧
      findInts [5, 12, 19, 3, 8] [5, 6, 19, 100] exampleDraws =
        .ok [true, false, true, false] :=
  ⟨⟨by decide, by decide⟩,
    (findInts_answers_in_order exampleKeys (by decide) [5, 6, 19, 100] exampleDraws [(11, 5)]
      exampleSet (by decide)).1.trans (by decide)⟩

/-- C5. Space bound: after a finished construction from `N` keys, the histogram
of the accepted outer hash has sum of squares at most `kSizeBound * N = 5 * N`,
the table sizes of the buckets are the squares of its entries, and so the sum
of the table sizes is at most `5 * N`. -/
theorem space_bound (keys : List Int) (gen gen' : RandomGenerator) (fs : FixedSet)
    (hfs : FixedSet.Initialize keys gen = .ok (fs, gen')) :
    ∃ d, FindKeyDistribution fs.tableHash_ keys = .ok d ∧
      CalculateSumOfSquares d ≤ kSizeBound * (keys.length : Int) ∧
      kSizeBound * (keys.length : Int) = 5 * (keys.length : Int) ∧
      (((fs.buckets_.map (fun b => b.boxes_.length)).sum : Nat) : Int) = CalculateSumOfSquares d ∧
      (fs.buckets_.map (fun b => b.boxes_.length)).sum ≤ 5 * keys.length := by
  obtain ⟨-, -, ⟨d, hd, hle⟩, -, -⟩ := fixedSet_initialize_spec keys gen gen' fs hfs
  have hb := FixedSet.Initialize_boxes keys gen gen' fs hfs d hd
  have hsum : (((fs.buckets_.map (fun b => b.boxes_.length)).sum : Nat) : Int) =
      CalculateSumOfSquares d := by
    rw [hb, CalculateSumOfSquares_eq]
  have h5 : kSizeBound * (keys.length : Int) = 5 * (keys.length : Int) := rfl
  refine ⟨d, hd, hle, h5, hsum, ?_⟩
  rw [h5, ← hsum] at hle
  exact_mod_cast hle

theorem space_bound_witness :
    FixedSet.Initialize exampleKeys exampleDraws = .ok (exampleSet, [(11, 5)]) ∧
      ∃ d, FindKeyDistribution exampleSet.tableHash_ exampleKeys = .ok d ∧
        CalculateSumOfSquares d ≤ kSizeBound * (exampleKeys.length : Int) ∧
        kSizeBound * (exampleKeys.length : Int) = 5 * (exampleKeys.length : Int) ∧
        (((exampleSet.buckets_.map (fun b => b.boxes_.length)).sum : Nat) : Int) =
          CalculateSumOfSquares d ∧
        (exampleSet.buckets_.map (fun b => b.boxes_.length)).sum ≤ 5 * exampleKeys.length :=
  ⟨by decide, space_bound exampleKeys exampleDraws [(11, 5)] exampleSet (by decide)⟩

/-- C6. Collision-free inner buckets: a bucket built by `Bucket::Initialize`
from `k > 0` keys has a table of `k * k` slots, and `getValue` of the accepted
inner hash with that table size sends the `k` keys to `k` pairwise distinct
indices, all in `[0, k * k)`. -/
theorem inner_buckets_collision_free (keys : List Int) (hk : 0 < keys.length)
    (gen gen' : RandomGenerator) (b : Bucket)
    (hb : Bucket.Initialize keys gen = .ok (b, gen')) :
    b.boxes_.length = keys.length * keys.length ∧
      ∃ indices : List Nat,
        keys.map (fun key => b.bucketHash_.getValue key (b.boxes_.length : Int)) =
          indices.map (fun (i : Nat) => (Except.ok (i : Int) : Except Fault Int)) ∧
        indices.length = keys.length ∧ indices.Nodup ∧
        ∀ i ∈ indices, i < keys.length * keys.length := by
  obtain ⟨s1, s2, s3, -, -⟩ := bucket_initialize_spec keys gen gen' b hb
  have hp : b.bucketHash_.functionPrime_ ≠ 0 := by
    rw [s1]
    exact kPrime_ne_zero
  have hsq : 0 < keys.length * keys.length := Nat.mul_pos hk hk
  refine ⟨s2, keys.map (fun key => b.bucketHash_.slot key (keys.length * keys.length)),
    ?_, by simp, nodup_slot_sq _ keys _ hk s3, ?_⟩
  · rw [List.map_map, s2]
    apply List.map_congr_left
    intro key _
    exact getValue_eq_slot _ hp key _ hsq
  · intro i hi
    obtain ⟨key, -, rfl⟩ := List.mem_map.mp hi
    exact slot_lt _ key _ hsq

theorem inner_buckets_collision_free_witness :
    (0 < [(3 : Int), 8].length ∧
      Bucket.Initialize [3, 8] [(2, 0), (1, 0), (9, 9)] = .ok (exampleBucket, [(9, 9)])) ∧
      exampleBucket.boxes_.length = [(3 : Int), 8].length * [(3 : Int), 8].length ∧
      ∃ indices : List Nat,
        [(3 : Int), 8].map
            (fun key => exampleBucket.bucketHash_.getValue key (exampleBucket.boxes_.length : Int)) =
          indices.map (fun (i : Nat) => (Except.ok (i : Int) : Except Fault Int)) ∧
        indices.length = [(3 : Int), 8].length ∧ indices.Nodup ∧
        ∀ i ∈ indices, i < [(3 : Int), 8].length * [(3 : Int), 8].length :=
  ⟨⟨by decide, by decide⟩,
    inner_buckets_collision_free [3, 8] (by decide) [(2, 0), (1, 0), (9, 9)] [(9, 9)]
      exampleBucket (by decide)⟩

/-- C7. Range of `HashFunction::getValue`: for every slope and intercept (given
to either constructor), every key and every table size `size > 0` the call
returns an index `r` with `0 ≤ r < size`. -/
theorem getValue_range (slope intercept prime key size : Int) (hsize : 0 < size) :
    (∃ r, (HashFunction.new2 slope intercept).getValue key size = .ok r ∧ 0 ≤ r ∧ r < size) ∧
      ∃ r, (HashFunction.new3 slope intercept prime).getValue key size = .ok r ∧
        0 ≤ r ∧ r < size := by
  have main : ∀ h : HashFunction, h.functionPrime_ = kPrime →
      ∃ r, h.getValue key size = .ok r ∧ 0 ≤ r ∧ r < size := by
    intro h hp
    have hp0 : h.functionPrime_ ≠ 0 := by
      rw [hp]
      exact kPrime_ne_zero
    exact ⟨_, getValue_eq_emod h hp0 key size hsize,
      Int.emod_nonneg _ (ne_of_gt hsize), Int.emod_lt_of_pos _ hsize⟩
  exact ⟨main _ rfl, main _ rfl⟩

theorem getValue_range_witness :
    (0 : Int) < 5 ∧
      (∃ r, (HashFunction.new2 3 4).getValue (-7) 5 = .ok r ∧ 0 ≤ r ∧ r < 5) ∧
      ∃ r, (HashFunction.new3 3 4 11).getValue (-7) 5 = .ok r ∧ 0 ≤ r ∧ r < 5 :=
  ⟨by decide, getValue_range 3 4 11 (-7) 5 (by decide)⟩

/-- C8. Overflow in the hash, evaluated on the code: for the slope 5000000000
and intercept 0, which the sampler can produce, and the 32-bit key 2000000000,
the value `slope * key + intercept` is 10^19 and does not fit in a signed 64-bit
integer; the `int64_t` evaluation wraps around to a negative number. -/
theorem linear_overflows :
    validDraw (5000000000, 0) ∧ isInt32 2000000000 ∧
      (GetRandomHashFunction (5000000000, 0)).exactLinear 2000000000 = 10000000000000000000 ∧
      ¬ fitsInt64 ((GetRandomHashFunction (5000000000, 0)).exactLinear 2000000000) ∧
      (GetRandomHashFunction (5000000000, 0)).linear 2000000000 = -8446744073709551616 := by
  decide

/-- C9. Collision modulo the prime, evaluated on the code: the sampler can
produce the slope `kPrime` (its range `[1, kPrime]` includes the upper end),
and with it the first step of `getValue` sends the distinct keys 1 and 2 to
the same value. -/
theorem modPrime_collides :
    validDraw (kPrime, 0) ∧ isInt32 1 ∧ isInt32 2 ∧ (1 : Int) ≠ 2 ∧
      (GetRandomHashFunction (kPrime, 0)).modPrime 1 = .ok 0 ∧
      (GetRandomHashFunction (kPrime, 0)).modPrime 2 = .ok 0 := by
  decide

/-- C10. Singleton set: for every key `x` and every sequence of draws,
`FixedSet::Initialize` on `[x]` accepts the first sampled outer hash and the
first sampled inner hash (each retry loop consumes exactly one draw), and
afterwards `Contains x` is true and `Contains y` is false for every `y ≠ x`. -/
theorem singleton_set (x : Int) (d1 d2 : Int × Int) (rest : RandomGenerator) :
    FixedSet.Initialize.search [x] 1 (kSizeBound * 1 + 1) HashFunction.default
        (d1 :: d2 :: rest) = .ok (GetRandomHashFunction d1, d2 :: rest) ∧
      Bucket.Initialize.search [x] (d2 :: rest) = .ok (GetRandomHashFunction d2, rest) ∧
      ∃ fs, FixedSet.Initialize [x] (d1 :: d2 :: rest) = .ok (fs, rest) ∧
        fs.tableHash_ = GetRandomHashFunction d1 ∧
        fs.buckets_.map (fun b => b.bucketHash_) = [GetRandomHashFunction d2] ∧
        fs.Contains x = .ok true ∧ ∀ y, y ≠ x → fs.Contains y = .ok false := by
  refine ⟨fixedSet_search_singleton x d1 _, bucket_search_singleton x d2 _,
    _, fixedSet_initialize_singleton x d1 d2 rest, rfl, rfl, ?_, ?_⟩
  · exact fixedSet_contains_of_mem [x] _ _ _ (fixedSet_initialize_singleton x d1 d2 rest) x
      (by simp)
  · intro y hy
    exact fixedSet_contains_of_not_mem [x] (by simp) _ _ _
      (fixedSet_initialize_singleton x d1 d2 rest) y (by simpa using hy)

theorem singleton_set_witness :
    ∃ fs, FixedSet.Initialize [5] [(3, 4), (6, 7)] = .ok (fs, []) ∧
      fs.Contains 5 = .ok true ∧ fs.Contains 6 = .ok false := by
  obtain ⟨-, -, fs, h1, -, -, h2, h3⟩ := singleton_set 5 (3, 4) (6, 7) []
  exact ⟨fs, h1, h2, h3 6 (by decide)⟩

/-- C11. Empty bucket: for every sequence of draws, `Bucket::Initialize` on the
empty key list returns (after one pass of its loop), the slot table it leaves
is empty (size 0), and `Bucket::Contains` then returns false for every
integer. -/
theorem empty_bucket (draw : Int × Int) (rest : RandomGenerator) :
    ∃ b, Bucket.Initialize [] (draw :: rest) = .ok (b, rest) ∧
      b.boxes_ = [] ∧ b.boxes_.length = 0 ∧ ∀ q, b.Contains q = .ok false := by
  refine ⟨_, bucket_initialize_nil draw rest, rfl, rfl, ?_⟩
  intro q
  simp [Bucket.Contains]

/-- C12. Inner acceptance criterion, evaluated on the code: for the keys 0 and
2 the hash with slope 1 and intercept 0 is collision-free over the `2 * 2`
slots of the bucket table (indices 0 and 2), yet the retry loop rejects it and
goes on to the next draw, because `FindKeyDistribution` builds its histogram
over `keys.size() = 2` entries, where both keys fall on entry 0. -/
theorem inner_test_rejects_collision_free :
    validDraw (1, 0) ∧
      [(0 : Int), 2].map (fun key => (GetRandomHashFunction (1, 0)).getValue key (2 * 2)) =
        [.ok 0, .ok 2] ∧
      FindKeyDistribution (GetRandomHashFunction (1, 0)) [0, 2] = .ok [2, 0] ∧
      CalculateSumOfSquares [2, 0] = 4 ∧
      Bucket.Initialize.search [0, 2] [(1, 0), (5000000010, 0)] =
        .ok (GetRandomHashFunction (5000000010, 0), []) := by
  decide

/-- C13. The sum-of-squares test means no collisions: for every hash function
(slope and intercept) and every non-empty key list of length `k`, the sum of
squares of the histogram `FindKeyDistribution` returns equals `k` exactly when
every entry of the histogram is 0 or 1, and exactly when the values
`getValue(key, k)` at the `k` positions of the list are pairwise distinct. -/
theorem sum_of_squares_test (slope intercept : Int) (keys : List Int) (hne : keys ≠ []) :
    ∃ d, FindKeyDistribution (HashFunction.new2 slope intercept) keys = .ok d ∧
      (CalculateSumOfSquares d = (keys.length : Int) ↔ ∀ b ∈ d, b = 0 ∨ b = 1) ∧
      (CalculateSumOfSquares d = (keys.length : Int) ↔
        (keys.map (fun key =>
          (HashFunction.new2 slope intercept).getValue key keys.length)).Nodup) := by
  have hp : (HashFunction.new2 slope intercept).functionPrime_ ≠ 0 := kPrime_ne_zero
  have hpos : 0 < keys.length := List.length_pos.mpr hne
  obtain ⟨d, hd, -, hsum, -⟩ := FindKeyDistribution_spec _ hp keys
  refine ⟨d, hd, ?_, ?_⟩
  · rw [CalculateSumOfSquares_eq, Int.ofNat_inj, ← hsum, sumsq_eq_sum_iff]
    constructor
    · intro hall b hb
      have := hall b hb
      omega
    · intro hall b hb
      have := hall b hb
      omega
  · rw [sumsq_eq_length_iff_nodup _ hp keys d hd, nodup_map_getValue_iff _ hp keys _ hpos]

theorem sum_of_squares_test_witness :
    [(3 : Int), 8] ≠ [] ∧
      ∃ d, FindKeyDistribution (HashFunction.new2 1 0) [3, 8] = .ok d ∧
        (CalculateSumOfSquares d = (([(3 : Int), 8].length : Nat) : Int) ↔
          ∀ b ∈ d, b = 0 ∨ b = 1) ∧
        (CalculateSumOfSquares d = (([(3 : Int), 8].length : Nat) : Int) ↔
          ([(3 : Int), 8].map (fun key =>
            (HashFunction.new2 1 0).getValue key ([(3 : Int), 8].length : Nat))).Nodup) :=
  ⟨by decide, sum_of_squares_test 1 0 [3, 8] (by decide)⟩

/-- C14, as stated, fails on the code: with slope 1 and intercept 0 (no
overflow is involved) the key -1 and the table size 2 give `getValue = 1`,
while `((1 * (-1) + 0) mod kPrime) mod 2 = 0`. -/
theorem getValue_ne_specHash :
    validDraw (1, 0) ∧ isInt32 (-1) ∧
      fitsInt64 ((GetRandomHashFunction (1, 0)).exactLinear (-1)) ∧
      (GetRandomHashFunction (1, 0)).getValue (-1) 2 = .ok 1 ∧
      specHash 1 0 (-1) 2 = 0 ∧
      (GetRandomHashFunction (1, 0)).getValue (-1) 2 ≠ .ok (specHash 1 0 (-1) 2) := by
  decide

/-- C14, amended: when `slope * key` and `slope * key + intercept` fit in
`int64_t` and the table size `m` is positive, `getValue(key, m)` is the
non-negative remainder modulo `m` of the truncating remainder of
`slope * key + intercept` by `kPrime`; when moreover
`slope * key + intercept ≥ 0` it equals
`((slope * key + intercept) mod kPrime) mod m`. -/
theorem getValue_eq_specHash_of_nonneg (slope intercept key m : Int) (hm : 0 < m)
    (hprod : fitsInt64 (slope * key)) (hsum : fitsInt64 (slope * key + intercept)) :
    (HashFunction.new2 slope intercept).getValue key m =
        .ok (Int.tmod (slope * key + intercept) kPrime % m) ∧
      (0 ≤ slope * key + intercept →
        (HashFunction.new2 slope intercept).getValue key m =
          .ok (specHash slope intercept key m)) := by
  have hp : (HashFunction.new2 slope intercept).functionPrime_ ≠ 0 := kPrime_ne_zero
  have hlin : (HashFunction.new2 slope intercept).linear key = slope * key + intercept :=
    linear_eq_exact _ key hprod hsum
  have h1 : (HashFunction.new2 slope intercept).getValue key m =
      .ok (Int.tmod (slope * key + intercept) kPrime % m) := by
    rw [getValue_eq_emod _ hp key m hm, hlin]
    rfl
  refine ⟨h1, ?_⟩
  intro hnn
  rw [h1, Int.tmod_eq_emod hnn (by decide)]
  rfl

theorem getValue_eq_specHash_of_nonneg_witness :
    ((0 : Int) < 5 ∧ fitsInt64 (3 * (-7)) ∧ fitsInt64 (3 * (-7) + 40)) ∧
      (HashFunction.new2 3 40).getValue (-7) 5 = .ok (Int.tmod (3 * (-7) + 40) kPrime % 5) ∧
      (0 ≤ 3 * (-7) + 40 →
        (HashFunction.new2 3 40).getValue (-7) 5 = .ok (specHash 3 40 (-7) 5)) :=
  ⟨⟨by decide, by decide, by decide⟩,
    getValue_eq_specHash_of_nonneg 3 40 (-7) 5 (by decide) (by decide) (by decide)⟩

/-- C15. Partition by the outer hash: for a finished construction from
`N ≥ 1` keys with accepted outer hash `h`, the group of index `i < N` is the
list of the keys with `h.getValue(key, N) = i`, in input order; bucket `i` is
built from that group; every key is in exactly one group; the number of keys of
group `i` is entry `i` of `FindKeyDistribution(h, keys)`; the table of bucket
`i` has the square of that number of slots; and the total size of the tables
is the sum of squares of the histogram. -/
theorem partition_by_outer_hash (keys : List Int) (hN : 1 ≤ keys.length)
    (gen gen' : RandomGenerator) (fs : FixedSet)
    (hfs : FixedSet.Initialize keys gen = .ok (fs, gen')) :
    ∃ d groups,
      FindKeyDistribution fs.tableHash_ keys = .ok d ∧
      FixedSet.Initialize.distribute fs.tableHash_ (keys.length : Int) keys
        (List.replicate keys.length []) = .ok groups ∧
      d.length = keys.length ∧ groups.length = keys.length ∧
      fs.buckets_.length = keys.length ∧
      (∀ i : Nat, i < keys.length →
        groups[i]? = some (keys.filter
          (fun key => fs.tableHash_.getValue key (keys.length : Int) = .ok (i : Int))) ∧
        (keys.filter
          (fun key => fs.tableHash_.getValue key (keys.length : Int) = .ok (i : Int))).length =
            d.getD i 0 ∧
        ∃ b g g', fs.buckets_[i]? = some b ∧
          Bucket.Initialize (keys.filter
            (fun key => fs.tableHash_.getValue key (keys.length : Int) = .ok (i : Int))) g =
              .ok (b, g') ∧
          b.boxes_.length = d.getD i 0 * d.getD i 0) ∧
      (∀ key ∈ keys, ∃! i : Nat, i < keys.length ∧
        key ∈ keys.filter
          (fun key => fs.tableHash_.getValue key (keys.length : Int) = .ok (i : Int))) ∧
      (((fs.buckets_.map (fun b => b.boxes_.length)).sum : Nat) : Int) =
        CalculateSumOfSquares d := by
  obtain ⟨-, s2, -, s4, s5⟩ := fixedSet_initialize_spec keys gen gen' fs hfs
  have hp : fs.tableHash_.functionPrime_ ≠ 0 := by
    rw [s2]
    exact kPrime_ne_zero
  have hpos : 0 < keys.length := hN
  obtain ⟨d, hd, hdl, -, hdc⟩ := FindKeyDistribution_spec fs.tableHash_ hp keys
  obtain ⟨groups, g1, g2, g3⟩ := FixedSet.Initialize.distribute_spec fs.tableHash_ hp
    keys.length keys (Or.inr hpos) (List.replicate keys.length []) (by simp)
  have hboxes := FixedSet.Initialize_boxes keys gen gen' fs hfs d hd
  refine ⟨d, groups, hd, g1, hdl, g2, s4, ?_, ?_, ?_⟩
  · intro i hi
    rw [filter_getValue_eq fs.tableHash_ hp keys keys.length hpos i]
    refine ⟨?_, ?_, ?_⟩
    · rw [g3 i, List.getElem?_replicate]
      simp [hi]
    · rw [hdc i, count_map_eq_length_filter]
    · have hlt : i < fs.buckets_.length := by omega
      obtain ⟨g, g', hb⟩ := s5 i _ (List.getElem?_eq_getElem hlt)
      obtain ⟨-, b2, -, -, -⟩ := bucket_initialize_spec _ g g' _ hb
      refine ⟨_, g, g', List.getElem?_eq_getElem hlt, hb, ?_⟩
      rw [b2, hdc i, count_map_eq_length_filter]
  · intro key hk
    refine ⟨fs.tableHash_.slot key keys.length, ⟨slot_lt _ key _ hpos, ?_⟩, ?_⟩
    · rw [filter_getValue_eq fs.tableHash_ hp keys keys.length hpos]
      simp [hk]
    · rintro i ⟨-, hi⟩
      rw [filter_getValue_eq fs.tableHash_ hp keys keys.length hpos] at hi
      have := (List.mem_filter.mp hi).2
      exact (of_decide_eq_true this).symm
  · rw [hboxes, CalculateSumOfSquares_eq]

theorem partition_by_outer_hash_witness :
    (1 ≤ exampleKeys.length ∧
      FixedSet.Initialize exampleKeys exampleDraws = .ok (exampleSet, [(11, 5)])) ∧
    ∃ d groups,
      FindKeyDistribution exampleSet.tableHash_ exampleKeys = .ok d ∧
      FixedSet.Initialize.distribute exampleSet.tableHash_ (exampleKeys.length : Int)
        exampleKeys (List.replicate exampleKeys.length []) = .ok groups ∧
      d.length = exampleKeys.length ∧ groups.length = exampleKeys.length ∧
      exampleSet.buckets_.length = exampleKeys.length ∧
      (∀ i : Nat, i < exampleKeys.length →
        groups[i]? = some (exampleKeys.filter
          (fun key => exampleSet.tableHash_.getValue key (exampleKeys.length : Int) =
            .ok (i : Int))) ∧
        (exampleKeys.filter
          (fun key => exampleSet.tableHash_.getValue key (exampleKeys.length : Int) =
            .ok (i : Int))).length = d.getD i 0 ∧
        ∃ b g g', exampleSet.buckets_[i]? = some b ∧
          Bucket.Initialize (exampleKeys.filter
            (fun key => exampleSet.tableHash_.getValue key (exampleKeys.length : Int) =
              .ok (i : Int))) g = .ok (b, g') ∧
          b.boxes_.length = d.getD i 0 * d.getD i 0) ∧
      (∀ key ∈ exampleKeys, ∃! i : Nat, i < exampleKeys.length ∧
        key ∈ exampleKeys.filter
          (fun key => exampleSet.tableHash_.getValue key (exampleKeys.length : Int) =
            .ok (i : Int))) ∧
      (((exampleSet.buckets_.map (fun b => b.boxes_.length)).sum : Nat) : Int) =
        CalculateSumOfSquares d :=
  ⟨⟨by decide, by decide⟩,
    partition_by_outer_hash exampleKeys (by decide) exampleDraws [(11, 5)] exampleSet
      (by decide)⟩

/-- C16. Slot table contents: after a finished `Bucket::Initialize` on `k`
keys the table is the result of the fill loop on `k * k` empty slots; the
indices the loop writes, `getValue(key, k * k)` for the keys in order, are
pairwise distinct, so each slot is written at most once; exactly `k` slots are
initialized; an initialized slot of index `j` holds a key of the bucket whose
index is `j`; and a slot that is the index of no key is as the default
constructor left it (not initialized). -/
theorem slot_table_contents (keys : List Int) (gen gen' : RandomGenerator) (b : Bucket)
    (hb : Bucket.Initialize keys gen = .ok (b, gen')) :
    b.boxes_.length = keys.length * keys.length ∧
      Bucket.Initialize.fill b.bucketHash_ keys
        (List.replicate (keys.length * keys.length) OptionalInt.null) = .ok b.boxes_ ∧
      (keys.map (fun key => b.bucketHash_.getValue key (b.boxes_.length : Int))).Nodup ∧
      b.boxes_.countP (fun box => box.isInitialized_) = keys.length ∧
      (∀ (j : Nat) (box : OptionalInt), b.boxes_[j]? = some box → box.isInitialized_ = true →
        box.value_ ∈ keys ∧
          b.bucketHash_.getValue box.value_ (b.boxes_.length : Int) = .ok (j : Int)) ∧
      (∀ (j : Nat) (box : OptionalInt), b.boxes_[j]? = some box →
        (∀ key ∈ keys, b.bucketHash_.getValue key (b.boxes_.length : Int) ≠ .ok (j : Int)) →
        box = OptionalInt.null ∧ box.isInitialized_ = false) := by
  obtain ⟨s1, s2, s3, -, s5⟩ := bucket_initialize_spec keys gen gen' b hb
  obtain ⟨-, hfill⟩ := bucket_initialize_fill keys gen gen' b hb
  have hp : b.bucketHash_.functionPrime_ ≠ 0 := by
    rw [s1]
    exact kPrime_ne_zero
  refine ⟨s2, hfill, ?_⟩
  rcases Nat.eq_zero_or_pos keys.length with h0 | hpos
  · have hk : keys = [] := List.length_eq_zero.mp h0
    subst hk
    have hnil : b.boxes_ = [] := List.length_eq_zero.mp (by simpa using s2)
    simp [hnil]
  · have hsq : 0 < keys.length * keys.length := Nat.mul_pos hpos hpos
    have hnd := nodup_slot_sq b.bucketHash_ keys keys.length hpos s3
    obtain ⟨boxes', f1, -, f3, -, -⟩ := Bucket.Initialize.fill_spec b.bucketHash_ hp
      (keys.length * keys.length) keys (Or.inr hsq)
      (List.replicate (keys.length * keys.length) OptionalInt.null) (by simp)
    rw [hfill] at f1
    cases f1
    have hcount := Bucket.Initialize.fill_count b.bucketHash_ hp (keys.length * keys.length)
      keys (Or.inr hsq) (List.replicate (keys.length * keys.length) OptionalInt.null)
      b.boxes_ (by simp) hnd
      (by
        intro key _ box hbox
        rw [List.getElem?_replicate] at hbox
        split at hbox
        · cases hbox
          rfl
        · cases hbox)
      hfill
    rw [s2]
    refine ⟨(nodup_map_getValue_iff _ hp keys _ hsq).mpr hnd, ?_, ?_, ?_⟩
    · rw [hcount]
      have h0 : (List.replicate (keys.length * keys.length) OptionalInt.null).countP
          (fun box => box.isInitialized_) = 0 := by
        rw [List.countP_eq_zero]
        intro box hbox
        rw [List.eq_of_mem_replicate hbox]
        simp [OptionalInt.null]
      omega
    · intro j box hj hinit
      obtain ⟨m1, m2⟩ := s5 j box hj hinit
      exact ⟨m1, (getValue_eq_ok_iff_slot _ hp _ _ hsq j).mpr m2⟩
    · intro j box hj hno
      have hnot : j ∉ keys.map (fun key => b.bucketHash_.slot key (keys.length * keys.length)) := by
        intro hmem
        obtain ⟨key, hk, e⟩ := List.mem_map.mp hmem
        exact hno key hk ((getValue_eq_ok_iff_slot _ hp _ _ hsq j).mpr e)
      have hrep := f3 j hnot
      rw [hj, List.getElem?_replicate] at hrep
      split at hrep
      · cases hrep
        exact ⟨rfl, rfl⟩
      · cases hrep

theorem slot_table_contents_witness :
    Bucket.Initialize [3, 8] [(2, 0), (1, 0), (9, 9)] = .ok (exampleBucket, [(9, 9)]) ∧
      exampleBucket.boxes_.length = [(3 : Int), 8].length * [(3 : Int), 8].length ∧
      Bucket.Initialize.fill exampleBucket.bucketHash_ [3, 8]
        (List.replicate ([(3 : Int), 8].length * [(3 : Int), 8].length) OptionalInt.null) =
          .ok exampleBucket.boxes_ ∧
      ([(3 : Int), 8].map
        (fun key => exampleBucket.bucketHash_.getValue key (exampleBucket.boxes_.length : Int))).Nodup ∧
      exampleBucket.boxes_.countP (fun box => box.isInitialized_) = [(3 : Int), 8].length ∧
      (∀ (j : Nat) (box : OptionalInt), exampleBucket.boxes_[j]? = some box →
        box.isInitialized_ = true →
        box.value_ ∈ [(3 : Int), 8] ∧
          exampleBucket.bucketHash_.getValue box.value_ (exampleBucket.boxes_.length : Int) =
            .ok (j : Int)) ∧
      (∀ (j : Nat) (box : OptionalInt), exampleBucket.boxes_[j]? = some box →
        (∀ key ∈ [(3 : Int), 8],
          exampleBucket.bucketHash_.getValue key (exampleBucket.boxes_.length : Int) ≠
            .ok (j : Int)) →
        box = OptionalInt.null ∧ box.isInitialized_ = false) :=
  ⟨by decide,
    slot_table_contents [3, 8] [(2, 0), (1, 0), (9, 9)] [(9, 9)] exampleBucket (by decide)⟩

/-- C17. Fixed prime modulus: the two-argument constructor, the three-argument
constructor (whatever its third argument) and `GetRandomHashFunction` all set
the modulus to `kPrime = 10000000019`; this number is prime and greater than
`2 ^ 32`; and the three-argument constructor gives the same `getValue` as the
two-argument one for all keys and sizes. -/
theorem fixed_prime_modulus :
    (∀ slope intercept : Int, (HashFunction.new2 slope intercept).functionPrime_ = kPrime) ∧
      (∀ slope intercept prime : Int,
        (HashFunction.new3 slope intercept prime).functionPrime_ = kPrime) ∧
      (∀ draw : Int × Int, (GetRandomHashFunction draw).functionPrime_ = kPrime) ∧
      kPrime = 10000000019 ∧ Nat.Prime kPrime.toNat ∧ (2 : Int) ^ 32 < kPrime ∧
      ∀ slope intercept prime key size : Int,
        (HashFunction.new3 slope intercept prime).getValue key size =
          (HashFunction.new2 slope intercept).getValue key size :=
  ⟨fun _ _ => rfl, fun _ _ _ => rfl, fun _ => rfl, rfl, prime_10000000019, by decide,
    fun _ _ _ _ _ => rfl⟩

/-- C18, as stated, fails on the code: on the empty key list both
`FixedSet::Initialize` and `Bucket::Initialize` take the first draw of the
random source, which is therefore not left in its initial state, and with no
draw available neither returns. -/
theorem empty_input_samples_once :
    FixedSet.Initialize [] [(1, 0), (2, 3)] = .ok (emptySet, [(2, 3)]) ∧
      emptySet.tableHash_ = GetRandomHashFunction (1, 0) ∧
      Bucket.Initialize [] [(1, 0), (2, 3)] = .ok (emptyBucket, [(2, 3)]) ∧
      emptyBucket.bucketHash_ = GetRandomHashFunction (1, 0) ∧
      ([(2, 3)] : RandomGenerator) ≠ [(1, 0), (2, 3)] ∧
      FixedSet.Initialize [] [] = .error Fault.drawsExhausted ∧
      Bucket.Initialize [] [] = .error Fault.drawsExhausted := by
  decide

/-- C18, amended: on the empty key list `FixedSet::Initialize` samples exactly
one hash function (its loop is entered because `memoryToSet` starts at
`kSizeBound * 0 + 1`, and the hash is accepted), advances the random source by
that one draw and builds no bucket; `Bucket::Initialize` on the empty key list
likewise samples exactly one hash function (the body of its `do ... while`),
advances the random source by one draw and leaves an empty table. -/
theorem empty_input_one_draw (draw : Int × Int) (rest : RandomGenerator) :
    FixedSet.Initialize [] (draw :: rest) =
        .ok ({ buckets_ := [], size_ := 0, tableHash_ := GetRandomHashFunction draw }, rest) ∧
      Bucket.Initialize [] (draw :: rest) =
        .ok ({ boxes_ := [], bucketHash_ := GetRandomHashFunction draw }, rest) := by
  refine ⟨?_, bucket_initialize_nil draw rest⟩
  have h1 : kSizeBound * ((([] : List Int).length : Nat) : Int) + 1 >
      kSizeBound * ((([] : List Int).length : Nat) : Int) := by decide
  have h0 : ¬ (CalculateSumOfSquares [] > kSizeBound * ((([] : List Int).length : Nat) : Int)) := by
    decide
  have hf : FindKeyDistribution (GetRandomHashFunction draw) [] = .ok [] := rfl
  have hs : FixedSet.Initialize.search [] ((([] : List Int).length : Nat) : Int)
      (kSizeBound * ((([] : List Int).length : Nat) : Int) + 1) HashFunction.default
      (draw :: rest) = .ok (GetRandomHashFunction draw, rest) := by
    rw [FixedSet.Initialize.search]
    simp only [h1, if_true, hf]
    cases rest with
    | nil => simp only [FixedSet.Initialize.search, h0, if_false]
    | cons a t => simp only [FixedSet.Initialize.search, h0, if_false]
  simp only [FixedSet.Initialize, hs]
  rfl

/-- C19. Duplicate keys can never be accepted: if a key list holds the same
value at two positions, then for every slope and intercept the acceptance test
of `Bucket::Initialize` fails (the sum of squares of the histogram differs
from the number of keys), its retry loop consumes every sequence of draws
without returning, and so does `FixedSet::Initialize` on such a list. -/
theorem duplicate_keys_never_accepted (keys : List Int) (hdup : ¬ keys.Nodup) :
    (∀ slope intercept : Int, ∃ d,
        FindKeyDistribution (HashFunction.new2 slope intercept) keys = .ok d ∧
        CalculateSumOfSquares d ≠ (keys.length : Int)) ∧
      (∀ gen : RandomGenerator,
        Bucket.Initialize.search keys gen = .error Fault.drawsExhausted) ∧
      (∀ gen : RandomGenerator, Bucket.Initialize keys gen = .error Fault.drawsExhausted) ∧
      (∀ gen : RandomGenerator, FixedSet.Initialize keys gen = .error Fault.drawsExhausted) := by
  refine ⟨?_, bucket_search_dup keys hdup, bucket_initialize_dup keys hdup,
    fixedSet_initialize_dup keys hdup⟩
  intro slope intercept
  have hp : (HashFunction.new2 slope intercept).functionPrime_ ≠ 0 := kPrime_ne_zero
  obtain ⟨d, hd, -, -, -⟩ := FindKeyDistribution_spec _ hp keys
  refine ⟨d, hd, ?_⟩
  intro hacc
  exact hdup (nodup_of_nodup_map_slot _ keys _
    ((sumsq_eq_length_iff_nodup _ hp keys d hd).mp hacc))

theorem duplicate_keys_never_accepted_witness :
    ¬ [(4 : Int), 7, 4].Nodup ∧
      (∀ slope intercept : Int, ∃ d,
        FindKeyDistribution (HashFunction.new2 slope intercept) [4, 7, 4] = .ok d ∧
        CalculateSumOfSquares d ≠ (([(4 : Int), 7, 4].length : Nat) : Int)) ∧
      (∀ gen : RandomGenerator,
        Bucket.Initialize.search [4, 7, 4] gen = .error Fault.drawsExhausted) ∧
      (∀ gen : RandomGenerator,
        Bucket.Initialize [4, 7, 4] gen = .error Fault.drawsExhausted) ∧
      (∀ gen : RandomGenerator,
        FixedSet.Initialize [4, 7, 4] gen = .error Fault.drawsExhausted) :=
  ⟨by decide, duplicate_keys_never_accepted [4, 7, 4] (by decide)⟩

/-- C20. Index safety for non-empty sets: for a set built from `N ≥ 1` keys and
every query `q`, the outer index `getValue(q, N)` is below
`buckets_.size() = N`; when the selected bucket has a non-empty table the inner
index `getValue(q, boxes_.size())` is below `boxes_.size()`; `Contains`
returns a value. Likewise every index `FindKeyDistribution` increments is
inside the histogram, every index the fill loop of `Bucket::Initialize` writes
is inside the table, and the construction never evaluates a hash with table
size 0 nor leaves a vector: it can only fail to finish. -/
theorem index_safety (keys : List Int) (hN : 1 ≤ keys.length) (gen gen' : RandomGenerator)
    (fs : FixedSet) (hfs : FixedSet.Initialize keys gen = .ok (fs, gen')) (q : Int) :
    fs.buckets_.length = keys.length ∧ fs.size_ = (keys.length : Int) ∧
      (∃ i : Nat, fs.tableHash_.getValue q fs.size_ = .ok (i : Int) ∧ i < fs.buckets_.length ∧
        ∀ b, fs.buckets_[i]? = some b → b.boxes_ ≠ [] →
          ∃ j : Nat, b.bucketHash_.getValue q (b.boxes_.length : Int) = .ok (j : Int) ∧
            j < b.boxes_.length) ∧
      (∃ r, fs.Contains q = .ok r) ∧
      (∀ (slope intercept : Int) (numbers : List Int),
        (∃ d, FindKeyDistribution (HashFunction.new2 slope intercept) numbers = .ok d ∧
          d.length = numbers.length) ∧
        ∀ key ∈ numbers, ∃ i : Nat,
          (HashFunction.new2 slope intercept).getValue key (numbers.length : Int) =
            .ok (i : Int) ∧ i < numbers.length) ∧
      (∀ (slope intercept : Int) (numbers : List Int),
        (∃ boxes, Bucket.Initialize.fill (HashFunction.new2 slope intercept) numbers
            (List.replicate (numbers.length * numbers.length) OptionalInt.null) = .ok boxes ∧
          boxes.length = numbers.length * numbers.length) ∧
        ∀ key ∈ numbers, ∃ j : Nat,
          (HashFunction.new2 slope intercept).getValue key
              ((numbers.length * numbers.length : Nat) : Int) = .ok (j : Int) ∧
            j < numbers.length * numbers.length) ∧
      (∀ (numbers : List Int) (g : RandomGenerator) (e : Fault),
        FixedSet.Initialize numbers g = .error e → e = Fault.drawsExhausted) ∧
      (∀ (numbers : List Int) (g : RandomGenerator) (e : Fault),
        Bucket.Initialize numbers g = .error e → e = Fault.drawsExhausted) := by
  obtain ⟨s1, s2, -, s4, s5⟩ := fixedSet_initialize_spec keys gen gen' fs hfs
  have hp : fs.tableHash_.functionPrime_ ≠ 0 := by
    rw [s2]
    exact kPrime_ne_zero
  have hpos : 0 < keys.length := hN
  have hne : keys ≠ [] := List.length_pos.mp hpos
  refine ⟨s4, s1, ?_, ⟨_, FixedSet.Contains_eq_decide keys hne gen gen' fs hfs q⟩, ?_, ?_,
    fixedSet_initialize_error, bucket_initialize_error⟩
  · have hlt : fs.tableHash_.slot q keys.length < fs.buckets_.length := by
      rw [s4]
      exact slot_lt _ q _ hpos
    refine ⟨fs.tableHash_.slot q keys.length, ?_, hlt, ?_⟩
    · rw [s1]
      exact getValue_eq_slot _ hp q _ hpos
    · intro b hb hbox
      obtain ⟨g, g', hinit⟩ := s5 _ b hb
      obtain ⟨b1, -, -, -, -⟩ := bucket_initialize_spec _ g g' b hinit
      have hbp : b.bucketHash_.functionPrime_ ≠ 0 := by
        rw [b1]
        exact kPrime_ne_zero
      have hlen : 0 < b.boxes_.length := List.length_pos.mpr hbox
      exact ⟨_, getValue_eq_slot _ hbp q _ hlen, slot_lt _ q _ hlen⟩
  · intro slope intercept numbers
    have hp2 : (HashFunction.new2 slope intercept).functionPrime_ ≠ 0 := kPrime_ne_zero
    obtain ⟨d, hd, hdl, -, -⟩ := FindKeyDistribution_spec _ hp2 numbers
    refine ⟨⟨d, hd, hdl⟩, ?_⟩
    intro key hk
    have hl : 0 < numbers.length := List.length_pos_of_mem hk
    exact ⟨_, getValue_eq_slot _ hp2 key _ hl, slot_lt _ key _ hl⟩
  · intro slope intercept numbers
    have hp2 : (HashFunction.new2 slope intercept).functionPrime_ ≠ 0 := kPrime_ne_zero
    have hn : numbers = [] ∨ 0 < numbers.length * numbers.length := by
      cases numbers with
      | nil => exact Or.inl rfl
      | cons a t => exact Or.inr (by simp)
    obtain ⟨boxes, f1, f2, -, -, -⟩ := Bucket.Initialize.fill_spec _ hp2
      (numbers.length * numbers.length) numbers hn
      (List.replicate (numbers.length * numbers.length) OptionalInt.null) (by simp)
    refine ⟨⟨boxes, f1, f2⟩, ?_⟩
    intro key hk
    have hl : 0 < numbers.length := List.length_pos_of_mem hk
    have hsq : 0 < numbers.length * numbers.length := Nat.mul_pos hl hl
    exact ⟨_, getValue_eq_slot _ hp2 key _ hsq, slot_lt _ key _ hsq⟩

theorem index_safety_witness :
    (1 ≤ exampleKeys.length ∧
      FixedSet.Initialize exampleKeys exampleDraws = .ok (exampleSet, [(11, 5)])) ∧
    ∃ i : Nat, exampleSet.tableHash_.getValue (-13) exampleSet.size_ = .ok (i : Int) ∧
      i < exampleSet.buckets_.length ∧
      ∀ b, exampleSet.buckets_[i]? = some b → b.boxes_ ≠ [] →
        ∃ j : Nat, b.bucketHash_.getValue (-13) (b.boxes_.length : Int) = .ok (j : Int) ∧
          j < b.boxes_.length :=
  ⟨⟨by decide, by decide⟩,
    (index_safety exampleKeys (by decide) exampleDraws [(11, 5)] exampleSet (by decide)
      (-13)).2.2.1⟩

end FKS
